import Mathlib

/-!
Shallow embedding of the arborium span-rendering pipeline
(`crates/arborium-highlight/src/render.rs`) and of the plugin session runtime
(`crates/arborium-plugin-runtime/src/lib.rs`).

Source texts are modelled as `List Char` (Rust `&str` is a sequence of unicode
scalar values); byte offsets are `Nat` and are interpreted through the UTF-8
width of each character (`Char.utf8Size`, identical to Rust's
`char::len_utf8`).  Rust string slicing `&source[a..b]` panics when `a` or `b`
is not a character boundary; this fallibility is modelled by `Option`-valued
slicing, so every function that slices returns `Option`.
-/

namespace Arborium

/-- UTF-8 byte length of a text, the model of Rust `str::len`. -/
def utf8Len (s : List Char) : Nat := (s.map Char.utf8Size).sum

/-- Drop the first `n` bytes of a text, the model of Rust `&source[n..]`.
Returns `none` when `n` is not a character boundary (Rust panics there). -/
def dropBytes : List Char → Nat → Option (List Char)
  | s, 0 => some s
  | [], _ + 1 => none
  | c :: rest, n + 1 =>
    if c.utf8Size ≤ n + 1 then dropBytes rest (n + 1 - c.utf8Size) else none

/-- Take the first `n` bytes of a text, the model of Rust `&source[..n]`.
Returns `none` when `n` is not a character boundary (Rust panics there). -/
def takeBytes : List Char → Nat → Option (List Char)
  | _, 0 => some []
  | [], _ + 1 => none
  | c :: rest, n + 1 =>
    if c.utf8Size ≤ n + 1 then (takeBytes rest (n + 1 - c.utf8Size)).map (fun t => c :: t)
    else none

/-- Model of Rust `&source[a..b]` (requires `a ≤ b` like Rust does). -/
def sliceBytes (s : List Char) (a b : Nat) : Option (List Char) :=
  if a ≤ b then (dropBytes s a).bind (fun r => takeBytes r (b - a)) else none

/-- A raw highlight span, `Span` from `arborium-highlight/src/types.rs`
(same shape as `arborium_wire::Utf8Span`). -/
structure Span where
  start : Nat
  «end» : Nat
  capture : String
  pattern_index : Nat
deriving DecidableEq

/-- A normalized span with theme slot tag, `NormalizedSpan` from `render.rs`. -/
structure NormalizedSpan where
  start : Nat
  «end» : Nat
  tag : String
deriving DecidableEq

/-- Modelled from the spec: the capture-name to theme-slot short-tag table of
`arborium_theme::tag_for_capture` (the `highlights` module of the theme crate
is not among the provided sources).  The spec treats the resolver as an
external pure function `capture_name -> Option<slot>`; the entries below are
exactly those pinned down by the unit tests of `render.rs` (`keyword -> k`,
`function -> f`, ..., `spell`/`nospell` -> no slot). -/
def captureSlotTable : List (String × String) :=
  [("keyword", "k"), ("keyword.function", "k"), ("keyword.import", "k"), ("include", "k"),
   ("function", "f"), ("string", "s"), ("comment", "c"), ("type", "t"),
   ("variable", "v"), ("constant", "co"), ("punctuation", "p"), ("property", "pr"),
   ("attribute", "at"), ("tag", "tg"), ("macro", "m"), ("label", "l"),
   ("namespace", "ns"), ("constructor", "cr"), ("text.title", "tt"),
   ("text.strong", "st"), ("text.emphasis", "em"), ("diff.addition", "da"),
   ("diff.deletion", "dd"), ("error", "er")]

/-- Association-list lookup used by the modelled resolver tables. -/
def lookupStr {α : Type} : List (String × α) → String → Option α
  | [], _ => none
  | (k, v) :: rest, c => if k = c then some v else lookupStr rest c

/-- Modelled from the spec: `arborium_theme::tag_for_capture`.  Maps a raw
capture name to the short tag of its theme slot, `none` for captures that
carry no visual style. -/
def tag_for_capture (capture : String) : Option String :=
  lookupStr captureSlotTable capture

/-- Modelled from the spec: `arborium_theme::capture_to_slot`.  The slot is
identified by its short tag; `none` models `ThemeSlot::None`. -/
def capture_to_slot (capture : String) : Option String :=
  lookupStr captureSlotTable capture

/-- Order of the styled slots, used to number them for ANSI themes. -/
def slotTagList : List String :=
  ["k", "f", "s", "c", "t", "v", "co", "p", "pr", "at", "tg", "m", "l", "ns",
   "cr", "tt", "st", "em", "da", "dd", "er"]

/-- Modelled from the spec: `arborium_theme::slot_to_highlight_index`.
`ThemeSlot::None` (here `none`) has no highlight index. -/
def slot_to_highlight_index (slot : Option String) : Option Nat :=
  slot.bind (fun tag => slotTagList.findIdx? (fun t => t = tag))

/-- Modelled from the spec: `arborium_theme::tag_to_name`, the short tag to
human-readable class-name table (pinned down by the `render.rs` unit tests). -/
def tag_to_name (tag : String) : Option String :=
  lookupStr
    [("k", "keyword"), ("f", "function"), ("s", "string"), ("c", "comment"),
     ("t", "type"), ("v", "variable"), ("co", "constant"), ("p", "punctuation"),
     ("pr", "property"), ("at", "attribute"), ("tg", "tag"), ("m", "macro"),
     ("l", "label"), ("ns", "namespace"), ("cr", "constructor"), ("tt", "title"),
     ("st", "strong"), ("em", "emphasis"), ("da", "diff-add"), ("dd", "diff-delete"),
     ("er", "error")] tag

/-- Modelled from the spec: the `HtmlFormat` configuration enum consumed by
`render.rs` (its declaration is not among the provided sources; the four
variants are pinned down by the `match` in `make_html_tags`).  The source
variant names are `CustomElements`, `CustomElementsWithPrefix(String)`,
`ClassNames`, `ClassNamesWithPrefix(String)`. -/
inductive HtmlFormat where
  | CustomElements : HtmlFormat
  | CustomElementsPrefixed : String → HtmlFormat
  | ClassNames : HtmlFormat
  | ClassNamesPrefixed : String → HtmlFormat
deriving DecidableEq

/-- The double-quote character. -/
def dquote : Char := Char.ofNat 34

/-- The single-quote character. -/
def squote : Char := Char.ofNat 39

/-- The ASCII escape character that starts an ANSI escape sequence. -/
def escChar : Char := Char.ofNat 27

/-- Model of `make_html_tags` from `render.rs`: opening and closing markup
tokens for a short tag under the configured format. -/
def make_html_tags (short_tag : String) (format : HtmlFormat) : List Char × List Char :=
  match format with
  | .CustomElements =>
    ("<a-".toList ++ short_tag.toList ++ [Char.ofNat 62],
     "</a-".toList ++ short_tag.toList ++ [Char.ofNat 62])
  | .CustomElementsPrefixed pfx =>
    ([Char.ofNat 60] ++ pfx.toList ++ ['-'] ++ short_tag.toList ++ [Char.ofNat 62],
     [Char.ofNat 60, '/'] ++ pfx.toList ++ ['-'] ++ short_tag.toList ++ [Char.ofNat 62])
  | .ClassNames =>
    match tag_to_name short_tag with
    | some name =>
      ("<span class=".toList ++ [dquote] ++ name.toList ++ [dquote, Char.ofNat 62],
       "</span>".toList)
    | none => ("<span>".toList, "</span>".toList)
  | .ClassNamesPrefixed pfx =>
    match tag_to_name short_tag with
    | some name =>
      ("<span class=".toList ++ [dquote] ++ pfx.toList ++ ['-'] ++ name.toList
        ++ [dquote, Char.ofNat 62],
       "</span>".toList)
    | none => ("<span>".toList, "</span>".toList)

/-- HTML escaping of one character, the body of the `match` in `html_escape`. -/
def escapeChar (c : Char) : List Char :=
  if c = '<' then "&lt;".toList
  else if c = Char.ofNat 62 then "&gt;".toList
  else if c = '&' then "&amp;".toList
  else if c = dquote then "&quot;".toList
  else if c = squote then "&#39;".toList
  else [c]

/-- Model of `html_escape` from `render.rs`. -/
def html_escape : List Char → List Char
  | [] => []
  | c :: rest => escapeChar c ++ html_escape rest

/-- Insert into a sorted list, before the first element that is not strictly
smaller. -/
def orderedInsertB {α : Type} (le : α → α → Bool) (a : α) : List α → List α
  | [] => [a]
  | b :: l => if le a b then a :: b :: l else b :: orderedInsertB le a l

/-- Model of Rust's stable `slice::sort_by`/`sort_by_key` under the total
preorder decided by `le`: a stable insertion sort.  A stable sort under a
total preorder is a unique function of its input, so this is extensionally
the sort the source performs. -/
def sort_by {α : Type} (le : α → α → Bool) : List α → List α
  | [] => []
  | a :: l => orderedInsertB le a (sort_by le l)

/-- Whether a span's capture resolves to a styled slot, the dedup signal of
`spans_to_html` (`tag_for_capture(..).is_some()`). -/
def has_styling (s : Span) : Bool := (tag_for_capture s.capture).isSome

/-- Whether a span's capture resolves to a themed highlight index, the dedup
signal of `spans_to_ansi`. -/
def has_slot (s : Span) : Bool :=
  (slot_to_highlight_index (capture_to_slot s.capture)).isSome

/-- Insert-or-overwrite into the association list that models the
`HashMap<(u32, u32), Span>` used for deduplication. -/
def upsertSpan : List ((Nat × Nat) × Span) → (Nat × Nat) → Span → List ((Nat × Nat) × Span)
  | [], key, v => [(key, v)]
  | (k, w) :: rest, key, v =>
    if k = key then (key, v) :: rest else (k, w) :: upsertSpan rest key v

/-- Lookup in the dedup map, the model of `HashMap::get`. -/
def lookupKey : List ((Nat × Nat) × Span) → (Nat × Nat) → Option Span
  | [], _ => none
  | (k, w) :: rest, key => if k = key then some w else lookupKey rest key

/-- One iteration of the dedup loop, shared shape of the HTML and ANSI
passes: overwrite the entry for `(start, end)` only if the new span is styled
(under the given signal) or the existing one is not. -/
def dedupStep (styled : Span → Bool) (m : List ((Nat × Nat) × Span)) (span : Span) :
    List ((Nat × Nat) × Span) :=
  let key := (span.start, span.«end»)
  match lookupKey m key with
  | some existing =>
    if styled span || !(styled existing) then upsertSpan m key span else m
  | none => upsertSpan m key span

/-- The dedup pass: build the map, then take its values (`into_values`; the
`HashMap` iteration order is unspecified, insertion order is used here as one
admissible order — see the determinism theorem for order independence). -/
def dedupBy (styled : Span → Bool) (spans : List Span) : List Span :=
  (spans.foldl (dedupStep styled) []).map Prod.snd

/-- The dedup pass of `spans_to_html` (`tag_for_capture`-based signal). -/
def dedupHtml (spans : List Span) : List Span := dedupBy has_styling spans

/-- The dedup pass of `spans_to_ansi` (slot-based signal). -/
def dedupAnsi (spans : List Span) : List Span := dedupBy has_slot spans

/-- Comparator of the initial sort in both renderers:
`sort_by(a.start.cmp(&b.start).then_with(|| b.end.cmp(&a.end)))`,
start ascending and end descending. -/
def spanLe (a b : Span) : Bool :=
  a.start < b.start || (a.start = b.start && b.«end» ≤ a.«end»)

/-- Comparator of `normalized.sort_by_key(|s| (s.start, s.end))`. -/
def nKeyLe (a b : NormalizedSpan) : Bool :=
  a.start < b.start || (a.start = b.start && a.«end» ≤ b.«end»)

/-- Comparator of the re-sort after coalescing in `spans_to_html`
(start ascending, end descending). -/
def nLe2 (a b : NormalizedSpan) : Bool :=
  a.start < b.start || (a.start = b.start && b.«end» ≤ a.«end»)

/-- Map a raw span to its normalized form, dropping it when its capture
resolves to no slot (the `filter_map` of `normalize_and_coalesce`). -/
def normalizeSpan (span : Span) : Option NormalizedSpan :=
  (tag_for_capture span.capture).map
    (fun tag => { start := span.start, «end» := span.«end», tag := tag })

/-- One iteration of the coalescing loop: the accumulator is kept reversed so
its head is the `last_mut()` of the Rust `Vec`; an adjacent or overlapping
span with the same tag extends the open run, anything else is pushed. -/
def coalescePush (acc : List NormalizedSpan) (span : NormalizedSpan) :
    List NormalizedSpan :=
  match acc with
  | last :: rest =>
    if span.tag = last.tag && span.start ≤ last.«end» then
      { last with «end» := max last.«end» span.«end» } :: rest
    else span :: last :: rest
  | [] => [span]

/-- The sort-and-merge step of the coalescer: sort by `(start, end)`, then
walk the sorted sequence merging touching/overlapping same-tag spans into the
open run (the accumulator is reversed at the end since it is kept
head-first). -/
def coalesceStep (l : List NormalizedSpan) : List NormalizedSpan :=
  ((sort_by nKeyLe l).foldl coalescePush []).reverse

/-- Model of `normalize_and_coalesce` from `render.rs`: resolve captures to
tags, drop unstyled spans, sort by `(start, end)`, merge touching/overlapping
same-tag runs. -/
def normalize_and_coalesce (spans : List Span) : List NormalizedSpan :=
  if spans = [] then []
  else
    let normalized := spans.filterMap normalizeSpan
    if normalized = [] then []
    else coalesceStep normalized

/-- Comparator of the event sort:
`events.sort_by(|a, b| a.0.cmp(&b.0).then_with(|| a.1.cmp(&b.1)))`,
position ascending, end events (`false`) before start events (`true`). -/
def eventLe (a b : Nat × Bool × Nat) : Bool :=
  a.1 < b.1 || (a.1 = b.1 && (!a.2.1 || b.2.1))

/-- Build the event list of the sweep: one start and one end event per span,
in enumeration order (before sorting). -/
def spanEvents (n : List NormalizedSpan) : List (Nat × Bool × Nat) :=
  n.enum.flatMap (fun p => [(p.2.start, true, p.1), (p.2.«end», false, p.1)])

/-- State of the HTML sweep loop: output accumulated so far, last emitted
byte position, and the stack of open span indices (head = top of stack). -/
structure HState where
  html : List Char
  lastPos : Nat
  stack : List Nat
deriving DecidableEq

/-- Emit one text fragment, wrapped by the top of the stack when one is open
(the shared emission code of the event loop and of the trailing flush). -/
def emitHtml (spans : List NormalizedSpan) (fmt : HtmlFormat) (html : List Char)
    (stack : List Nat) (text : List Char) : List Char :=
  match stack.head? with
  | some top =>
    let tag := ((spans.get? top).map NormalizedSpan.tag).getD ""
    let tags := make_html_tags tag fmt
    html ++ tags.1 ++ html_escape text ++ tags.2
  | none => html ++ html_escape text

/-- One iteration of the HTML event loop: emit the source text between the
last emitted position and this event (when in range), then update the stack
(push on start, remove the exact index on end). -/
def processHtmlEvent (source : List Char) (spans : List NormalizedSpan)
    (fmt : HtmlFormat) (st : HState) (ev : Nat × Bool × Nat) : Option HState :=
  let pos := ev.1
  let afterEmit : Option HState :=
    if st.lastPos < pos ∧ pos ≤ utf8Len source then
      match sliceBytes source st.lastPos pos with
      | some text =>
        some { st with html := emitHtml spans fmt st.html st.stack text, lastPos := pos }
      | none => none
    else some st
  afterEmit.map (fun st1 =>
    { st1 with stack := if ev.2.1 then ev.2.2 :: st1.stack else st1.stack.erase ev.2.2 })

/-- The stage of `spans_to_html` that runs on the values taken out of the
dedup map: normalize/coalesce, re-sort, sweep the span boundaries with a
stack, emitting escaped text wrapped by the innermost open span.  Factored
out because the dedup map hands its values over in an unspecified iteration
order, and the determinism theorem quantifies over that order. -/
def renderFromDeduped (source : List Char) (fmt : HtmlFormat) (deduped : List Span) :
    Option (List Char) :=
  let ns := normalize_and_coalesce deduped
  if ns = [] then some (html_escape source)
  else
    let ns2 := sort_by nLe2 ns
    let events := sort_by eventLe (spanEvents ns2)
    match events.foldlM (processHtmlEvent source ns2 fmt) (HState.mk [] 0 []) with
    | none => none
    | some st =>
      if st.lastPos < utf8Len source then
        match dropBytes source st.lastPos with
        | some text => some (emitHtml ns2 fmt st.html st.stack text)
        | none => none
      else some st.html

/-- Model of `spans_to_html` from `render.rs`: sort, dedup, then render.
`none` models a Rust slicing panic (a span boundary in the middle of a
multi-byte character). -/
def spans_to_html (source : List Char) (spans : List Span) (fmt : HtmlFormat) :
    Option (List Char) :=
  if spans = [] then some (html_escape source)
  else renderFromDeduped source fmt (dedupHtml (sort_by spanLe spans))

/-- A styled span for ANSI rendering, the local `StyledSpan` of
`spans_to_ansi`. -/
structure StyledSpan where
  start : Nat
  «end» : Nat
  index : Nat
deriving DecidableEq

/-- Comparator of `normalized.sort_by_key(|s| (s.start, s.end))` in
`spans_to_ansi`. -/
def sKeyLe (a b : StyledSpan) : Bool :=
  a.start < b.start || (a.start = b.start && a.«end» ≤ b.«end»)

/-- Map a raw span to a styled span through
`slot_to_highlight_index(capture_to_slot(..))`. -/
def styleSpan (span : Span) : Option StyledSpan :=
  (slot_to_highlight_index (capture_to_slot span.capture)).map
    (fun i => { start := span.start, «end» := span.«end», index := i })

/-- One iteration of the ANSI coalescing loop (same-style adjacent or
overlapping runs merge). -/
def coalescePushAnsi (acc : List StyledSpan) (span : StyledSpan) :
    List StyledSpan :=
  match acc with
  | last :: rest =>
    if span.index = last.index && span.start ≤ last.«end» then
      { last with «end» := max last.«end» span.«end» } :: rest
    else span :: last :: rest
  | [] => [span]

/-- Build the ANSI event list (before sorting). -/
def styledEvents (n : List StyledSpan) : List (Nat × Bool × Nat) :=
  n.enum.flatMap (fun p => [(p.2.start, true, p.1), (p.2.«end», false, p.1)])

/-- Modelled from the spec: the ANSI theme.  The theme crate's `Theme` is not
among the provided sources; all the renderer consumes is `ansi_style`, a map
from an index to the escape sequence that starts that style. -/
structure Theme where
  ansiStyle : Nat → List Char

/-- Model of `Theme::ANSI_RESET`, the standard reset sequence. -/
def ansiReset : List Char := [escChar, '[', '0', 'm']

/-- State of the ANSI sweep loop. -/
structure AState where
  out : List Char
  lastPos : Nat
  stack : List Nat
  activeStyle : Option Nat

/-- The style-transition match of `spans_to_ansi`: given the active style and
the desired style (the top-of-stack span index), emit reset/style sequences
around the text and return the new output and active style. -/
def emitAnsi (theme : Theme) (out : List Char) (activeStyle : Option Nat)
    (desired : Option Nat) (text : List Char) : List Char × Option Nat :=
  match activeStyle, desired with
  | some a, some d =>
    if a = d then (out ++ text, some a)
    else (out ++ ansiReset ++ theme.ansiStyle d ++ text, some d)
  | none, some d => (out ++ theme.ansiStyle d ++ text, some d)
  | some _, none => (out ++ ansiReset ++ text, none)
  | none, none => (out ++ text, none)

/-- One iteration of the ANSI event loop. -/
def processAnsiEvent (source : List Char) (theme : Theme) (st : AState)
    (ev : Nat × Bool × Nat) : Option AState :=
  let pos := ev.1
  let afterEmit : Option AState :=
    if st.lastPos < pos ∧ pos ≤ utf8Len source then
      match sliceBytes source st.lastPos pos with
      | some text =>
        let p := emitAnsi theme st.out st.activeStyle st.stack.head? text
        some { st with out := p.1, activeStyle := p.2, lastPos := pos }
      | none => none
    else some st
  afterEmit.map (fun st1 =>
    { st1 with stack := if ev.2.1 then ev.2.2 :: st1.stack else st1.stack.erase ev.2.2 })

/-- Model of `spans_to_ansi` from `render.rs`.  Mirrors the HTML pipeline but
tracks a single active style and diffs transitions; note that, as in the
source, the value handed to `theme.ansi_style` is the top-of-stack span index
(`span_idx`), not the span's highlight index. -/
def spans_to_ansi (source : List Char) (spans : List Span) (theme : Theme) :
    Option (List Char) :=
  if spans = [] then some source
  else
    let sorted := sort_by spanLe spans
    let deduped := dedupAnsi sorted
    let normalized := deduped.filterMap styleSpan
    if normalized = [] then some source
    else
      let coalesced := ((sort_by sKeyLe normalized).foldl coalescePushAnsi []).reverse
      if coalesced = [] then some source
      else
        let events := sort_by eventLe (styledEvents coalesced)
        match events.foldlM (processAnsiEvent source theme) (AState.mk [] 0 [] none) with
        | none => none
        | some st =>
          let trail : Option (List Char × Option Nat) :=
            if st.lastPos < utf8Len source then
              match dropBytes source st.lastPos with
              | some text => some (emitAnsi theme st.out st.activeStyle st.stack.head? text)
              | none => none
            else some (st.out, st.activeStyle)
          match trail with
          | none => none
          | some p => some (if p.2.isSome then p.1 ++ ansiReset else p.1)

/-!
Embedding of the plugin session runtime
(`crates/arborium-plugin-runtime/src/lib.rs`).  The tree-sitter engine
(parser, tree, query cursor) is the external collaborator of §6 of the spec;
it is abstracted as a type of trees `τ` together with the three operations the
runtime consumes (`TSApi`).  The runtime is modelled sequentially: the
`AtomicBool` cancellation flag becomes a plain `Bool` field (it cannot change
in the middle of a modelled `parse` call, so the periodic mid-loop
cancellation checks — which re-read the same flag — are redundant in the
model and only the entry check is represented).
-/

/-- An edit to apply to the text, `arborium_wire::Edit`. -/
structure Edit where
  start_byte : Nat
  old_end_byte : Nat
  new_end_byte : Nat
  start_row : Nat
  start_col : Nat
  old_end_row : Nat
  old_end_col : Nat
  new_end_row : Nat
  new_end_col : Nat
deriving DecidableEq

/-- An injection point, `arborium_wire::Utf8Injection`. -/
structure Injection where
  start : Nat
  «end» : Nat
  language : String
  include_children : Bool
deriving DecidableEq

/-- Result of a parse, `arborium_wire::Utf8ParseResult`. -/
structure ParseResult where
  spans : List Span
  injections : List Injection
deriving DecidableEq

/-- Model of `ParseResult::empty`. -/
def ParseResult.empty : ParseResult := { spans := [], injections := [] }

/-- Error connected to parsing, `arborium_wire::ParseError`. -/
structure ParseError where
  message : String
deriving DecidableEq

/-- One capture of a query match, as the external query engine hands it to the
runtime: a capture index, the node's byte range, and the result of
`node.utf8_text(source)` (`none` models the `Err` case). -/
structure QCapture where
  index : Nat
  nodeStart : Nat
  nodeEnd : Nat
  nodeText : Option String
deriving DecidableEq

/-- One query match: a pattern index and its captures. -/
structure QMatch where
  patternIndex : Nat
  captures : List QCapture
deriving DecidableEq

/-- A `#set!` query property: key and optional value. -/
structure QueryProperty where
  key : String
  value : Option String
deriving DecidableEq

/-- The compiled highlight configuration, `HighlightConfig` from the runtime
crate.  The compiled `Query` object itself is external; the runtime consumes
only its capture names and per-pattern `#set!` properties, plus the
precomputed pattern-index boundaries and injection capture indices. -/
structure HighlightConfig where
  capture_names : List String
  property_settings : Nat → List QueryProperty
  injection_content_capture_index : Option Nat
  injection_language_capture_index : Option Nat
  locals_pattern_index : Nat
  highlights_pattern_index : Nat

/-- The external tree-sitter operations the runtime consumes (§6 of the
spec), abstracted over the type of trees `τ`: full/incremental parsing
(`Parser::parse`, `none` on total failure), edit application (`Tree::edit`),
and query-match production (`QueryCursor::matches` over the root node). -/
structure TSApi (τ : Type) where
  parseText : List Char → Option τ → Option τ
  editTree : τ → Edit → τ
  treeMatches : τ → List Char → List QMatch

/-- A parsing session, `Session` from the runtime crate (the per-session
`Parser` and `QueryCursor` are scratch state of the external engine and have
no observable content of their own). -/
structure Session (τ : Type) where
  tree : Option τ
  text : List Char
  cancelled : Bool
deriving DecidableEq

/-- Model of `Session::new`. -/
def Session.new {τ : Type} : Session τ :=
  { tree := none, text := [], cancelled := false }

/-- Association-list lookup, the model of `BTreeMap::get`. -/
def assocLookup {κ β : Type} [DecidableEq κ] : List (κ × β) → κ → Option β
  | [], _ => none
  | (k, v) :: rest, key => if k = key then some v else assocLookup rest key

/-- Update the value at a key in place when present, the model of a mutation
through `BTreeMap::get_mut`. -/
def assocUpdate {κ β : Type} [DecidableEq κ] (m : List (κ × β)) (key : κ) (f : β → β) :
    List (κ × β) :=
  match m with
  | [] => []
  | (k, v) :: rest => if k = key then (k, f v) :: rest else (k, v) :: assocUpdate rest key f

/-- Remove a key, the model of `BTreeMap::remove`. -/
def assocRemove {κ β : Type} [DecidableEq κ] (m : List (κ × β)) (key : κ) :
    List (κ × β) :=
  match m with
  | [] => []
  | (k, v) :: rest => if k = key then rest else (k, v) :: assocRemove rest key

/-- The runtime of a grammar plugin, `PluginRuntime` from the runtime crate.
The immutable shared configuration and the external engine are passed to the
operations explicitly; the mutable state is the session map and the handle
counter. -/
structure PluginRuntime (τ : Type) where
  sessions : List (Nat × Session τ)
  next_session_id : Nat
deriving DecidableEq

/-- Model of `PluginRuntime::new`. -/
def PluginRuntime.new (τ : Type) : PluginRuntime τ :=
  { sessions := [], next_session_id := 1 }

/-- Model of `PluginRuntime::create_session`: allocate the next handle
(`fetch_add` returns the pre-increment value) and insert a fresh session. -/
def PluginRuntime.create_session {τ : Type} (rt : PluginRuntime τ) :
    PluginRuntime τ × Nat :=
  let id := rt.next_session_id
  ({ sessions := rt.sessions ++ [(id, Session.new)],
     next_session_id := rt.next_session_id + 1 }, id)

/-- Model of `PluginRuntime::free_session`. -/
def PluginRuntime.free_session {τ : Type} (rt : PluginRuntime τ) (session_id : Nat) :
    PluginRuntime τ :=
  { rt with sessions := assocRemove rt.sessions session_id }

/-- Model of `PluginRuntime::set_text`: replace the text, full re-parse with
no old tree, clear the cancellation flag; silently a no-op on an unknown
handle. -/
def PluginRuntime.set_text {τ : Type} (api : TSApi τ) (rt : PluginRuntime τ)
    (session_id : Nat) (text : List Char) : PluginRuntime τ :=
  { rt with sessions := assocUpdate rt.sessions session_id (fun _ =>
      { tree := api.parseText text none, text := text, cancelled := false }) }

/-- Model of `PluginRuntime::apply_edit`: store the new text, apply the edit
to the existing tree when there is one, re-parse with the (edited) old tree
as the incremental reuse hint, clear the cancellation flag; silently a no-op
on an unknown handle. -/
def PluginRuntime.apply_edit {τ : Type} (api : TSApi τ) (rt : PluginRuntime τ)
    (session_id : Nat) (new_text : List Char) (edit : Edit) : PluginRuntime τ :=
  { rt with sessions := assocUpdate rt.sessions session_id (fun s =>
      let edited : Option τ :=
        match s.tree with
        | some t => some (api.editTree t edit)
        | none => none
      { tree := api.parseText new_text edited, text := new_text, cancelled := false }) }

/-- Model of `PluginRuntime::cancel`: set the cancellation flag; silently a
no-op on an unknown handle. -/
def PluginRuntime.cancel {τ : Type} (rt : PluginRuntime τ) (session_id : Nat) :
    PluginRuntime τ :=
  { rt with sessions := assocUpdate rt.sessions session_id (fun s =>
      { s with cancelled := true }) }

/-- The body of the capture walk of one injection match: a language capture
with decodable text overwrites the language name, a content capture
overwrites the content node (an `else if` chain, so a language capture with
undecodable text still shadows the content test). -/
def injectionCaptureStep (langIdx contentIdx : Option Nat)
    (acc : Option String × Option (Nat × Nat)) (c : QCapture) :
    Option String × Option (Nat × Nat) :=
  if langIdx = some c.index then
    match c.nodeText with
    | some name => (some name, acc.2)
    | none => acc
  else if contentIdx = some c.index then (acc.1, some (c.nodeStart, c.nodeEnd))
  else acc

/-- The capture walk of one injection match. -/
def injectionCaptureState (cfg : HighlightConfig) (m : QMatch) :
    Option String × Option (Nat × Nat) :=
  m.captures.foldl
    (injectionCaptureStep cfg.injection_language_capture_index
      cfg.injection_content_capture_index)
    (none, none)

/-- The body of the `#set!` property walk of one injection match: an
`injection.language` property is consulted only while no language name is
known yet; `injection.include-children` sets the flag. -/
def injectionPropsStep (acc : Option String × Bool) (p : QueryProperty) :
    Option String × Bool :=
  if p.key = "injection.language" then
    (match acc.1 with
     | none => p.value
     | some l => some l, acc.2)
  else if p.key = "injection.include-children" then (acc.1, true)
  else acc

/-- The `#set!` property walk of one injection match. -/
def injectionPropsState (props : List QueryProperty) (lang0 : Option String) :
    Option String × Bool :=
  props.foldl injectionPropsStep (lang0, false)

/-- Process one match of the injection pattern group, producing an injection
when both a language name and a content node were found. -/
def processInjectionMatch (cfg : HighlightConfig) (m : QMatch) : Option Injection :=
  let cs := injectionCaptureState cfg m
  let ps := injectionPropsState (cfg.property_settings m.patternIndex) cs.1
  match ps.1, cs.2 with
  | some lang, some node =>
    some { start := node.1, «end» := node.2, language := lang,
           include_children := ps.2 }
  | _, _ => none

/-- Process one match of the highlights pattern group: one span per capture,
skipping internal (`_`), injection-namespace and locals-namespace captures.
The runtime constructs wire spans without a pattern index (the wire type
defaults it to `0`); the capture-name table indexing is in bounds by
construction of the query, modelled with a `""` default. -/
def highlightCaptureSpans (cfg : HighlightConfig) (m : QMatch) : List Span :=
  m.captures.filterMap (fun c =>
    let capture_name := (cfg.capture_names.get? c.index).getD ""
    if capture_name.startsWith "_" then none
    else if capture_name.startsWith "injection." then none
    else if capture_name.startsWith "local." then none
    else some { start := c.nodeStart, «end» := c.nodeEnd, capture := capture_name,
                pattern_index := 0 })

/-- Comparator of `spans.sort_by_key(|s| (s.start, s.end))` in `parse`. -/
def wspanLe (a b : Span) : Bool :=
  a.start < b.start || (a.start = b.start && a.«end» ≤ b.«end»)

/-- The match loop of `parse`: classify each match by the pattern-index
boundaries into injections / locals (skipped) / highlights, then sort the
spans by `(start, end)`. -/
def runQuery (cfg : HighlightConfig) (ms : List QMatch) : ParseResult :=
  let p := ms.foldl
    (fun (acc : List Span × List Injection) m =>
      if m.patternIndex < cfg.locals_pattern_index then
        match processInjectionMatch cfg m with
        | some inj => (acc.1, acc.2 ++ [inj])
        | none => acc
      else if m.patternIndex < cfg.highlights_pattern_index then acc
      else (acc.1 ++ highlightCaptureSpans cfg m, acc.2))
    ([], [])
  { spans := sort_by wspanLe p.1, injections := p.2 }

/-- Model of `PluginRuntime::parse`: unknown handle is an error; a cancelled
session returns a successful empty result before anything else is looked at;
a session without a tree is an error; otherwise the compiled query runs over
the tree and the current text. -/
def PluginRuntime.parse {τ : Type} (cfg : HighlightConfig) (api : TSApi τ)
    (rt : PluginRuntime τ) (session_id : Nat) : Except ParseError ParseResult :=
  match assocLookup rt.sessions session_id with
  | none => Except.error { message := "invalid session id" }
  | some session =>
    if session.cancelled then Except.ok ParseResult.empty
    else
      match session.tree with
      | none => Except.error { message := "no text set for session" }
      | some tree => Except.ok (runQuery cfg (api.treeMatches tree session.text))

/-- The language name produced by the capture walk alone: the last
`injection.language` capture whose text decoded. -/
def capturedInjectionLanguage (cfg : HighlightConfig) (m : QMatch) : Option String :=
  (m.captures.filterMap (fun c =>
    if cfg.injection_language_capture_index = some c.index then c.nodeText else none)).getLast?

/-- The language name an `injection.language` `#set!` property would supply:
the first such property carrying a value. -/
def propertyInjectionLanguage (props : List QueryProperty) : Option String :=
  props.findSome? (fun p => if p.key = "injection.language" then p.value else none)

/-- The injection language the runtime ends up with for one match. -/
def injectionLanguage (cfg : HighlightConfig) (m : QMatch) : Option String :=
  (injectionPropsState (cfg.property_settings m.patternIndex)
    (injectionCaptureState cfg m).1).1

/-!
Observation functions for the round-trip claims: recover the plain text from
rendered markup.  For HTML output this is "strip the `<...>` structural
tokens, then undo the HTML escaping"; for ANSI output it is "strip the
`ESC ... m` escape sequences".
-/

/-- Tag-stripping scanner.  Outside a tag (`false` state) a `<` enters tag
state and everything else is copied; inside a tag everything up to the
closing `>` is dropped. -/
def stripTagsState : Bool → List Char → List Char
  | _, [] => []
  | false, c :: rest =>
    if c = '<' then stripTagsState true rest else c :: stripTagsState false rest
  | true, c :: rest =>
    if c = Char.ofNat 62 then stripTagsState false rest else stripTagsState true rest

/-- Remove all `<...>` tokens from rendered markup. -/
def stripTags (l : List Char) : List Char := stripTagsState false l

/-- Undo `html_escape`: decode the five entities it produces. -/
def unescapeHtml : List Char → List Char
  | [] => []
  | '&' :: 'l' :: 't' :: ';' :: rest => '<' :: unescapeHtml rest
  | '&' :: 'g' :: 't' :: ';' :: rest => Char.ofNat 62 :: unescapeHtml rest
  | '&' :: 'a' :: 'm' :: 'p' :: ';' :: rest => '&' :: unescapeHtml rest
  | '&' :: 'q' :: 'u' :: 'o' :: 't' :: ';' :: rest => dquote :: unescapeHtml rest
  | '&' :: '#' :: '3' :: '9' :: ';' :: rest => squote :: unescapeHtml rest
  | c :: rest => c :: unescapeHtml rest

/-- Recover the plain text of HTML-mode output: strip the structural tokens,
then undo the escaping of the literal fragments. -/
def stripHtmlMarkup (l : List Char) : List Char := unescapeHtml (stripTags l)

/-- ANSI-stripping scanner: an `ESC` enters escape-sequence state and
everything up to the terminating `m` is dropped; everything else is copied. -/
def stripAnsiState : Bool → List Char → List Char
  | _, [] => []
  | false, c :: rest =>
    if c = escChar then stripAnsiState true rest else c :: stripAnsiState false rest
  | true, c :: rest =>
    if c = 'm' then stripAnsiState false rest else stripAnsiState true rest

/-- Remove all ANSI escape sequences from rendered terminal output. -/
def stripAnsi (l : List Char) : List Char := stripAnsiState false l

/-- A well-formed structural token: `<`, then a body free of `>`, then `>`. -/
def isTagToken (t : List Char) : Prop :=
  ∃ mid, t = '<' :: mid ++ [Char.ofNat 62] ∧ Char.ofNat 62 ∉ mid

/-- A well-formed ANSI escape sequence: `ESC`, then a body free of `m`
(and of further `ESC`s), then the terminating `m`. -/
def isAnsiToken (t : List Char) : Prop :=
  ∃ mid, t = escChar :: mid ++ ['m'] ∧ 'm' ∉ mid

/-- The rendered-markup shape invariant: `HtmlChunks out txt` says the output
accumulated so far is a concatenation of well-formed structural tokens and
escaped literal fragments whose plain concatenation is `txt`. -/
inductive HtmlChunks : List Char → List Char → Prop where
  | nil : HtmlChunks [] []
  | tag : ∀ {out txt t}, HtmlChunks out txt → isTagToken t → HtmlChunks (out ++ t) txt
  | text : ∀ {out txt} (s : List Char), HtmlChunks out txt →
      HtmlChunks (out ++ html_escape s) (txt ++ s)

/-- The ANSI output shape invariant: a concatenation of well-formed escape
sequences and raw literal fragments (which must not contain `ESC`) whose
concatenation is `txt`. -/
inductive AnsiChunks : List Char → List Char → Prop where
  | nil : AnsiChunks [] []
  | seq : ∀ {out txt t}, AnsiChunks out txt → isAnsiToken t → AnsiChunks (out ++ t) txt
  | text : ∀ {out txt} (s : List Char), AnsiChunks out txt → escChar ∉ s →
      AnsiChunks (out ++ s) (txt ++ s)

/-- A byte position that falls on a character boundary of the source
(reducible so that it stays decidable on concrete inputs). -/
@[reducible]
def isBoundary (s : List Char) (n : Nat) : Prop := (dropBytes s n).isSome

/-- The output-format condition for the round-trip property: a configured
element/class name part supplied from outside must not contain `>`
(otherwise it would terminate the structural token early). -/
def fmtOk : HtmlFormat → Prop
  | .CustomElements => True
  | .CustomElementsPrefixed pfx => Char.ofNat 62 ∉ pfx.toList
  | .ClassNames => True
  | .ClassNamesPrefixed pfx => Char.ofNat 62 ∉ pfx.toList

/-- A theme whose style sequences are well-formed ANSI escape sequences. -/
def themeOk (theme : Theme) : Prop := ∀ i, isAnsiToken (theme.ansiStyle i)

/-- The `(start, end)` sorting relation on normalized spans, as a
proposition. -/
def NLe (a b : NormalizedSpan) : Prop :=
  a.start < b.start ∨ (a.start = b.start ∧ a.«end» ≤ b.«end»)

/-- Distinctness of the `(start, end)` keys of two spans. -/
def KeyNe (a b : Span) : Prop :=
  ¬ (a.start = b.start ∧ a.«end» = b.«end»)

/-- Distinctness of the `(start, end)` keys of two normalized spans. -/
def NKeyNe (a b : NormalizedSpan) : Prop :=
  ¬ (a.start = b.start ∧ a.«end» = b.«end»)

/-!
Lemmas about the association-list session map.
-/

theorem assocLookup_update_self {κ β : Type} [DecidableEq κ] (m : List (κ × β))
    (key : κ) (f : β → β) :
    assocLookup (assocUpdate m key f) key = (assocLookup m key).map f := by
  induction m with
  | nil => simp [assocLookup, assocUpdate]
  | cons p rest ih =>
    obtain ⟨k, v⟩ := p
    by_cases h : k = key
    · simp [assocLookup, assocUpdate, h]
    · simp [assocLookup, assocUpdate, h, ih]

theorem assocUpdate_of_lookup_none {κ β : Type} [DecidableEq κ] (m : List (κ × β))
    (key : κ) (f : β → β) (h : assocLookup m key = none) :
    assocUpdate m key f = m := by
  induction m with
  | nil => simp [assocUpdate]
  | cons p rest ih =>
    obtain ⟨k, v⟩ := p
    by_cases hk : k = key
    · simp [assocLookup, hk] at h
    · simp [assocLookup, hk] at h
      simp [assocUpdate, hk, ih h]

theorem assocLookup_eq_none_of_not_mem {κ β : Type} [DecidableEq κ]
    (m : List (κ × β)) (key : κ) (h : key ∉ m.map Prod.fst) :
    assocLookup m key = none := by
  induction m with
  | nil => simp [assocLookup]
  | cons p rest ih =>
    obtain ⟨k, v⟩ := p
    simp only [List.map_cons, List.mem_cons, not_or] at h
    have hne : ¬ (k = key) := fun hk => h.1 hk.symm
    simp only [assocLookup, if_neg hne]
    exact ih h.2

theorem assocLookup_remove_self {κ β : Type} [DecidableEq κ] (m : List (κ × β))
    (key : κ) (h : (m.map Prod.fst).Nodup) :
    assocLookup (assocRemove m key) key = none := by
  induction m with
  | nil => simp [assocRemove, assocLookup]
  | cons p rest ih =>
    obtain ⟨k, v⟩ := p
    simp only [List.map_cons, List.nodup_cons] at h
    by_cases hk : k = key
    · subst hk
      simp only [assocRemove, if_pos rfl]
      exact assocLookup_eq_none_of_not_mem rest k h.1
    · simp only [assocRemove, assocLookup, hk, if_false, ite_false]
      exact ih h.2

/-- Claim C6: cancellation before `parse` yields a successful empty result.
For every runtime and live session on which text has been set, calling
`cancel` and then `parse` (nothing in between) returns `Ok` of a result with
zero spans and zero injections, not an error. -/
theorem c6_cancel_then_parse_is_ok_empty {τ : Type} (cfg : HighlightConfig)
    (api : TSApi τ) (rt : PluginRuntime τ) (sid : Nat) (s : Session τ)
    (hlive : assocLookup rt.sessions sid = some s) (htext : s.tree.isSome) :
    PluginRuntime.parse cfg api (rt.cancel sid) sid = Except.ok ParseResult.empty ∧
      ParseResult.empty.spans = [] ∧ ParseResult.empty.injections = [] := by
  refine ⟨?_, rfl, rfl⟩
  unfold PluginRuntime.parse PluginRuntime.cancel
  simp only [assocLookup_update_self, hlive, Option.map_some]
  rfl

/-- Concrete run of the C6 theorem: a session created, given text, cancelled,
then parsed, produces the successful empty result. -/
theorem c6_witness :
    let api : TSApi Unit := TSApi.mk (fun _ _ => some ()) (fun t _ => t) (fun _ _ => [])
    let cfg : HighlightConfig := HighlightConfig.mk [] (fun _ => []) none none 0 0
    let rt1 := ((PluginRuntime.new Unit).create_session).1
    let rt2 := PluginRuntime.set_text api rt1 1 "fn main".toList
    PluginRuntime.parse cfg api (rt2.cancel 1) 1 = Except.ok ParseResult.empty := by
  intro api cfg rt1 rt2
  exact (c6_cancel_then_parse_is_ok_empty cfg api rt2 1
    (Session.mk (some ()) "fn main".toList false) (by rfl) (by rfl)).1

/-- Counterexample to claim C7 as stated: after `free_session`, the runtime
mixes the two policies.  The state-changing operations (`set_text` here, and
likewise `apply_edit`/`cancel`) are silent no-ops that report nothing, while
`parse` on the same freed handle reports the invalid-handle error — so it is
not the case that every operation is a no-op, nor that every operation
reports an invalid-handle condition. -/
theorem c7_counterexample :
    let api : TSApi Unit := TSApi.mk (fun _ _ => some ()) (fun t _ => t) (fun _ _ => [])
    let cfg : HighlightConfig := HighlightConfig.mk [] (fun _ => []) none none 0 0
    let rt2 := ((PluginRuntime.new Unit).create_session).1.free_session 1
    PluginRuntime.set_text api rt2 1 "x".toList = rt2 ∧
      PluginRuntime.cancel rt2 1 = rt2 ∧
      PluginRuntime.parse cfg api rt2 1 =
        Except.error (ParseError.mk "invalid session id") := by
  exact ⟨rfl, rfl, rfl⟩

/-- Claim C7 (amended): after `free_session` the freed handle is gone from
the session map, every state-changing operation (`set_text`, `apply_edit`,
`cancel`) on it is a silent no-op, and `parse` on it reports the
invalid-handle error — one fixed split of behaviours, not a single uniform
policy across all four operations. -/
theorem c7_freed_handle_behaviour {τ : Type} (cfg : HighlightConfig) (api : TSApi τ)
    (rt : PluginRuntime τ) (sid : Nat) (text new_text : List Char) (edit : Edit)
    (hnodup : (rt.sessions.map Prod.fst).Nodup) :
    assocLookup (rt.free_session sid).sessions sid = none ∧
      PluginRuntime.set_text api (rt.free_session sid) sid text = rt.free_session sid ∧
      PluginRuntime.apply_edit api (rt.free_session sid) sid new_text edit =
        rt.free_session sid ∧
      PluginRuntime.cancel (rt.free_session sid) sid = rt.free_session sid ∧
      PluginRuntime.parse cfg api (rt.free_session sid) sid =
        Except.error (ParseError.mk "invalid session id") := by
  have hnone : assocLookup (rt.free_session sid).sessions sid = none :=
    assocLookup_remove_self rt.sessions sid hnodup
  refine ⟨hnone, ?_, ?_, ?_, ?_⟩
  · unfold PluginRuntime.set_text
    rw [assocUpdate_of_lookup_none _ _ _ hnone]
  · unfold PluginRuntime.apply_edit
    rw [assocUpdate_of_lookup_none _ _ _ hnone]
  · unfold PluginRuntime.cancel
    rw [assocUpdate_of_lookup_none _ _ _ hnone]
  · unfold PluginRuntime.parse
    rw [hnone]

/-- Concrete run of the C7 amended theorem on a freshly created and freed
session. -/
theorem c7_witness :
    let api : TSApi Unit := TSApi.mk (fun _ _ => some ()) (fun t _ => t) (fun _ _ => [])
    let cfg : HighlightConfig := HighlightConfig.mk [] (fun _ => []) none none 0 0
    let rt1 := ((PluginRuntime.new Unit).create_session).1
    PluginRuntime.parse cfg api (rt1.free_session 1) 1 =
      Except.error (ParseError.mk "invalid session id") := by
  intro api cfg rt1
  exact (c7_freed_handle_behaviour cfg api rt1 1 [] [] (Edit.mk 0 0 0 0 0 0 0 0 0)
    (by decide)).2.2.2.2

/-- Claim C10: `apply_edit` on a live session that never had `set_text` (no
tree) is not an error path: the new text is stored, the tree-edit step is
skipped and a full parse (old-tree hint `none`) runs, the cancellation flag
is cleared, and a subsequent `parse` succeeds with the query result for the
new text. -/
theorem c10_apply_edit_before_set_text {τ : Type} (cfg : HighlightConfig)
    (api : TSApi τ) (rt : PluginRuntime τ) (sid : Nat) (s : Session τ)
    (new_text : List Char) (edit : Edit) (tr : τ)
    (hlive : assocLookup rt.sessions sid = some s) (hnotree : s.tree = none)
    (hparse : api.parseText new_text none = some tr) :
    assocLookup (PluginRuntime.apply_edit api rt sid new_text edit).sessions sid =
      some (Session.mk (some tr) new_text false) ∧
      PluginRuntime.parse cfg api (PluginRuntime.apply_edit api rt sid new_text edit) sid =
        Except.ok (runQuery cfg (api.treeMatches tr new_text)) := by
  have hlook : assocLookup (PluginRuntime.apply_edit api rt sid new_text edit).sessions sid =
      some (Session.mk (some tr) new_text false) := by
    unfold PluginRuntime.apply_edit
    simp only [assocLookup_update_self, hlive, Option.map_some, Option.map_some',
      hnotree, hparse]
  refine ⟨hlook, ?_⟩
  unfold PluginRuntime.parse
  rw [hlook]
  rfl

/-- Concrete run of the C10 theorem: `create_session` then directly
`apply_edit`, then `parse`, which succeeds. -/
theorem c10_witness :
    let api : TSApi Unit := TSApi.mk (fun _ _ => some ()) (fun t _ => t) (fun _ _ => [])
    let cfg : HighlightConfig := HighlightConfig.mk [] (fun _ => []) none none 0 0
    let rt1 := ((PluginRuntime.new Unit).create_session).1
    let rt2 := PluginRuntime.apply_edit api rt1 1 "let x".toList (Edit.mk 0 0 5 0 0 0 0 0 5)
    PluginRuntime.parse cfg api rt2 1 = Except.ok (ParseResult.mk [] []) := by
  intro api cfg rt1 rt2
  exact (c10_apply_edit_before_set_text cfg api rt1 1 Session.new "let x".toList
    (Edit.mk 0 0 5 0 0 0 0 0 5) () (by rfl) (by rfl) (by rfl)).2

theorem getLast?_cons_or {α : Type} (t : α) (fl : List α) (x : Option α) :
    ((t :: fl).getLast?).or x = (fl.getLast?).or (some t) := by
  cases fl with
  | nil => simp
  | cons b bs =>
    rw [List.getLast?_cons_cons]
    have hsome : ((b :: bs).getLast?).isSome := by
      rw [List.getLast?_isSome]
      exact List.cons_ne_nil b bs
    obtain ⟨z, hz⟩ := Option.isSome_iff_exists.mp hsome
    rw [hz]
    rfl

theorem injectionCaptureFold_fst (langIdx contentIdx : Option Nat)
    (l : List QCapture) (acc : Option String × Option (Nat × Nat)) :
    (l.foldl (injectionCaptureStep langIdx contentIdx) acc).1 =
      ((l.filterMap (fun c =>
        if langIdx = some c.index then c.nodeText else none)).getLast?).or acc.1 := by
  induction l generalizing acc with
  | nil => simp
  | cons c rest ih =>
    by_cases hidx : langIdx = some c.index
    · cases htext : c.nodeText with
      | none =>
        have hstep : injectionCaptureStep langIdx contentIdx acc c = acc := by
          simp [injectionCaptureStep, hidx, htext]
        rw [List.foldl_cons, List.filterMap_cons, hstep, htext, if_pos hidx, ih]
      | some t =>
        have hstep : injectionCaptureStep langIdx contentIdx acc c = (some t, acc.2) := by
          simp [injectionCaptureStep, hidx, htext]
        rw [List.foldl_cons, List.filterMap_cons, hstep, htext, if_pos hidx, ih]
        exact (getLast?_cons_or t _ acc.1).symm
    · by_cases hc : contentIdx = some c.index
      · have hstep : injectionCaptureStep langIdx contentIdx acc c =
            (acc.1, some (c.nodeStart, c.nodeEnd)) := by
          simp [injectionCaptureStep, hidx, hc]
        rw [List.foldl_cons, List.filterMap_cons, hstep, if_neg hidx, ih]
      · have hstep : injectionCaptureStep langIdx contentIdx acc c = acc := by
          simp [injectionCaptureStep, hidx, hc]
        rw [List.foldl_cons, List.filterMap_cons, hstep, if_neg hidx, ih]

theorem injectionCaptureState_fst (cfg : HighlightConfig) (m : QMatch) :
    (injectionCaptureState cfg m).1 = capturedInjectionLanguage cfg m := by
  unfold injectionCaptureState capturedInjectionLanguage
  rw [injectionCaptureFold_fst]
  cases hl : (m.captures.filterMap (fun c =>
      if cfg.injection_language_capture_index = some c.index then c.nodeText
      else none)).getLast? <;> rfl

theorem injectionPropsFold_fst (l : List QueryProperty) (acc : Option String × Bool) :
    (l.foldl injectionPropsStep acc).1 =
      acc.1.or (l.findSome? (fun p =>
        if p.key = "injection.language" then p.value else none)) := by
  induction l generalizing acc with
  | nil =>
    obtain ⟨a1, a2⟩ := acc
    cases a1 <;> rfl
  | cons p rest ih =>
    obtain ⟨a1, a2⟩ := acc
    rw [List.foldl_cons, List.findSome?_cons]
    by_cases hk : p.key = "injection.language"
    · have hstep : injectionPropsStep (a1, a2) p = (a1.or p.value, a2) := by
        cases a1 <;> simp [injectionPropsStep, hk, Option.or]
      rw [hstep, if_pos hk, ih]
      cases p.value <;> cases a1 <;> rfl
    · have hstep : injectionPropsStep (a1, a2) p = (a1, (injectionPropsStep (a1, a2) p).2) := by
        by_cases hk2 : p.key = "injection.include-children" <;>
          simp [injectionPropsStep, hk, hk2]
      rw [hstep, ih, if_neg hk]

theorem injectionPropsState_fst (props : List QueryProperty) (lang0 : Option String) :
    (injectionPropsState props lang0).1 = lang0.or (propertyInjectionLanguage props) := by
  unfold injectionPropsState propertyInjectionLanguage
  exact injectionPropsFold_fst props (lang0, false)

/-- Claim C8: in the runtime's injection processing, captured
`injection.language` text takes precedence — when some language capture's
text decoded, that (last such) text is the injection language; the `#set!`
`injection.language` property value is consulted only when no captured
language name was found. -/
theorem c8_injection_language_precedence (cfg : HighlightConfig) (m : QMatch) :
    (∀ t, capturedInjectionLanguage cfg m = some t → injectionLanguage cfg m = some t) ∧
      (capturedInjectionLanguage cfg m = none →
        injectionLanguage cfg m =
          propertyInjectionLanguage (cfg.property_settings m.patternIndex)) := by
  constructor
  · intro t ht
    unfold injectionLanguage
    rw [injectionPropsState_fst, injectionCaptureState_fst, ht]
    rfl
  · intro hnone
    unfold injectionLanguage
    rw [injectionPropsState_fst, injectionCaptureState_fst, hnone]
    rfl

/-!
Byte-offset slicing lemmas.
-/

theorem dropBytes_zero (s : List Char) : dropBytes s 0 = some s := by
  cases s <;> rfl

theorem utf8Len_nil : utf8Len [] = 0 := rfl

theorem utf8Len_cons (c : Char) (rest : List Char) :
    utf8Len (c :: rest) = c.utf8Size + utf8Len rest := by
  simp [utf8Len]

theorem utf8Len_append (a b : List Char) :
    utf8Len (a ++ b) = utf8Len a + utf8Len b := by
  induction a with
  | nil => simp [utf8Len]
  | cons c rest ih => simp [utf8Len_cons, ih]; omega

theorem utf8Len_eq_zero {r : List Char} (h : utf8Len r = 0) : r = [] := by
  cases r with
  | nil => rfl
  | cons c rest =>
    rw [utf8Len_cons] at h
    have := c.utf8Size_pos
    omega

theorem takeBytes_drop {r : List Char} {k : Nat} {f : List Char}
    (h : takeBytes r k = some f) :
    ∃ r', dropBytes r k = some r' ∧ r = f ++ r' := by
  induction r generalizing k f with
  | nil =>
    cases k with
    | zero =>
      simp [takeBytes] at h
      exact ⟨[], by simp [dropBytes, h.symm]⟩
    | succ n => simp [takeBytes] at h
  | cons c rest ih =>
    cases k with
    | zero =>
      simp [takeBytes] at h
      exact ⟨c :: rest, by simp [dropBytes, h.symm]⟩
    | succ n =>
      by_cases hle : c.utf8Size ≤ n + 1
      · simp only [takeBytes, if_pos hle, Option.map_eq_some'] at h
        obtain ⟨t, ht, hf⟩ := h
        obtain ⟨r', hdrop, heq⟩ := ih ht
        refine ⟨r', ?_, ?_⟩
        · simp only [dropBytes, if_pos hle]
          exact hdrop
        · rw [← hf, heq]
          rfl
      · simp [takeBytes, if_neg hle] at h

theorem dropBytes_take {r : List Char} {k : Nat}
    (h : (dropBytes r k).isSome) : (takeBytes r k).isSome := by
  induction r generalizing k with
  | nil =>
    cases k with
    | zero => simp [takeBytes]
    | succ n => simp [dropBytes] at h
  | cons c rest ih =>
    cases k with
    | zero => simp [takeBytes]
    | succ n =>
      by_cases hle : c.utf8Size ≤ n + 1
      · simp only [dropBytes, if_pos hle] at h
        obtain ⟨t, ht⟩ := Option.isSome_iff_exists.mp (ih h)
        simp [takeBytes, if_pos hle, ht]
      · simp [dropBytes, if_neg hle] at h

theorem dropBytes_add {s : List Char} {a : Nat} {r : List Char}
    (h : dropBytes s a = some r) (k : Nat) :
    dropBytes s (a + k) = dropBytes r k := by
  induction s generalizing a with
  | nil =>
    cases a with
    | zero =>
      rw [dropBytes_zero] at h
      cases h
      rw [Nat.zero_add]
    | succ n => simp [dropBytes] at h
  | cons c rest ih =>
    cases a with
    | zero =>
      rw [dropBytes_zero] at h
      cases h
      rw [Nat.zero_add]
    | succ n =>
      by_cases hle : c.utf8Size ≤ n + 1
      · simp only [dropBytes, if_pos hle] at h
        have harith : n + 1 + k = (n + k) + 1 := by omega
        rw [harith]
        have hle2 : c.utf8Size ≤ (n + k) + 1 := by omega
        simp only [dropBytes, if_pos hle2]
        have harith2 : (n + k) + 1 - c.utf8Size = (n + 1 - c.utf8Size) + k := by omega
        rw [harith2]
        exact ih h
      · simp [dropBytes, if_neg hle] at h

theorem dropBytes_utf8Len {s : List Char} {n : Nat} {r : List Char}
    (h : dropBytes s n = some r) : n + utf8Len r = utf8Len s := by
  induction s generalizing n with
  | nil =>
    cases n with
    | zero => rw [dropBytes_zero] at h; cases h; omega
    | succ m => simp [dropBytes] at h
  | cons c rest ih =>
    cases n with
    | zero => rw [dropBytes_zero] at h; cases h; omega
    | succ m =>
      by_cases hle : c.utf8Size ≤ m + 1
      · simp only [dropBytes, if_pos hle] at h
        have := ih h
        rw [utf8Len_cons]
        omega
      · simp [dropBytes, if_neg hle] at h

theorem sliceBytes_decompose {s : List Char} {a b : Nat} {rem f : List Char}
    (hrem : dropBytes s a = some rem) (hslice : sliceBytes s a b = some f)
    (hab : a ≤ b) :
    ∃ rem', rem = f ++ rem' ∧ dropBytes s b = some rem' := by
  unfold sliceBytes at hslice
  rw [if_pos hab, hrem, Option.some_bind] at hslice
  obtain ⟨r', hdrop, heq⟩ := takeBytes_drop hslice
  refine ⟨r', heq, ?_⟩
  have := dropBytes_add hrem (b - a)
  rw [show a + (b - a) = b from by omega] at this
  rw [this, hdrop]

theorem sliceBytes_isSome {s : List Char} {a b : Nat}
    (h1 : isBoundary s a) (h2 : isBoundary s b) (hab : a ≤ b) :
    (sliceBytes s a b).isSome := by
  unfold isBoundary at h1 h2
  obtain ⟨rem, hrem⟩ := Option.isSome_iff_exists.mp h1
  unfold sliceBytes
  rw [if_pos hab, hrem, Option.some_bind]
  apply dropBytes_take
  have := dropBytes_add hrem (b - a)
  rw [show a + (b - a) = b from by omega] at this
  rw [← this]
  exact h2

/-!
Strip/unescape lemmas for the round-trip claims.
-/

theorem stripTagsState_true_append {mid : List Char} (h : Char.ofNat 62 ∉ mid)
    (b : List Char) :
    stripTagsState true (mid ++ (Char.ofNat 62 :: b)) = stripTagsState false b := by
  induction mid with
  | nil => simp [stripTagsState]
  | cons c rest ih =>
    simp only [List.mem_cons, not_or] at h
    have hne : ¬ (c = Char.ofNat 62) := fun hc => h.1 hc.symm
    simp only [List.cons_append, stripTagsState, if_neg hne]
    exact ih h.2

theorem stripTags_tag_append {t : List Char} (h : isTagToken t) (b : List Char) :
    stripTagsState false (t ++ b) = stripTagsState false b := by
  obtain ⟨mid, ht, hmid⟩ := h
  subst ht
  simp only [List.cons_append, List.append_assoc, List.singleton_append]
  simp only [stripTagsState, if_pos rfl]
  exact stripTagsState_true_append hmid b

theorem stripTags_clean_append {a : List Char} (h : '<' ∉ a) (b : List Char) :
    stripTagsState false (a ++ b) = a ++ stripTagsState false b := by
  induction a with
  | nil => simp
  | cons c rest ih =>
    simp only [List.mem_cons, not_or] at h
    have hne : ¬ (c = '<') := fun hc => h.1 hc.symm
    simp only [List.cons_append, stripTagsState, if_neg hne]
    exact congrArg (fun x => c :: x) (ih h.2)

theorem lt_not_mem_escapeChar (c : Char) : '<' ∉ escapeChar c := by
  unfold escapeChar
  by_cases h1 : c = '<'
  · rw [if_pos h1]; decide
  · rw [if_neg h1]
    by_cases h2 : c = Char.ofNat 62
    · rw [if_pos h2]; decide
    · rw [if_neg h2]
      by_cases h3 : c = '&'
      · rw [if_pos h3]; decide
      · rw [if_neg h3]
        by_cases h4 : c = dquote
        · rw [if_pos h4]; decide
        · rw [if_neg h4]
          by_cases h5 : c = squote
          · rw [if_pos h5]; decide
          · rw [if_neg h5]
            simp only [List.mem_singleton]
            exact fun hc => h1 hc.symm

theorem lt_not_mem_escape (s : List Char) : '<' ∉ html_escape s := by
  induction s with
  | nil => simp [html_escape]
  | cons c rest ih =>
    simp only [html_escape, List.mem_append, not_or]
    exact ⟨lt_not_mem_escapeChar c, ih⟩

theorem html_escape_append (a b : List Char) :
    html_escape (a ++ b) = html_escape a ++ html_escape b := by
  induction a with
  | nil => rfl
  | cons c rest ih =>
    simp only [List.cons_append, html_escape, List.append_eq, ih, List.append_assoc]

set_option maxHeartbeats 2000000 in
theorem unescape_cons_of_ne (c : Char) (m : List Char) (h : ¬ (c = '&')) :
    unescapeHtml (c :: m) = c :: unescapeHtml m := by
  rw [unescapeHtml.eq_def]
  split
  · next heq => exact (List.cons_ne_nil c m heq).elim
  · next heq => injection heq with h1 _; exact absurd h1 h
  · next heq => injection heq with h1 _; exact absurd h1 h
  · next heq => injection heq with h1 _; exact absurd h1 h
  · next heq => injection heq with h1 _; exact absurd h1 h
  · next heq => injection heq with h1 _; exact absurd h1 h
  · next heq => injection heq with h1 h2; rw [h1, h2]

set_option maxHeartbeats 1000000 in
theorem unescape_lt (r : List Char) :
    unescapeHtml ('&' :: 'l' :: 't' :: ';' :: r) = '<' :: unescapeHtml r := rfl

set_option maxHeartbeats 1000000 in
theorem unescape_gt (r : List Char) :
    unescapeHtml ('&' :: 'g' :: 't' :: ';' :: r) = Char.ofNat 62 :: unescapeHtml r := rfl

set_option maxHeartbeats 1000000 in
theorem unescape_amp (r : List Char) :
    unescapeHtml ('&' :: 'a' :: 'm' :: 'p' :: ';' :: r) = '&' :: unescapeHtml r := rfl

set_option maxHeartbeats 1000000 in
theorem unescape_quot (r : List Char) :
    unescapeHtml ('&' :: 'q' :: 'u' :: 'o' :: 't' :: ';' :: r) = dquote :: unescapeHtml r := rfl

set_option maxHeartbeats 1000000 in
theorem unescape_num (r : List Char) :
    unescapeHtml ('&' :: '#' :: '3' :: '9' :: ';' :: r) = squote :: unescapeHtml r := rfl

theorem unescape_escape_append (t rest : List Char) :
    unescapeHtml (html_escape t ++ rest) = t ++ unescapeHtml rest := by
  induction t generalizing rest with
  | nil => rfl
  | cons c t' ih =>
    show unescapeHtml ((escapeChar c ++ html_escape t') ++ rest) = _
    rw [List.append_assoc]
    by_cases h1 : c = '<'
    · subst h1
      show unescapeHtml ('&' :: 'l' :: 't' :: ';' :: (html_escape t' ++ rest)) = _
      rw [unescape_lt, ih]
      rfl
    · by_cases h2 : c = Char.ofNat 62
      · subst h2
        show unescapeHtml ('&' :: 'g' :: 't' :: ';' :: (html_escape t' ++ rest)) = _
        rw [unescape_gt, ih]
        rfl
      · by_cases h3 : c = '&'
        · subst h3
          show unescapeHtml ('&' :: 'a' :: 'm' :: 'p' :: ';' :: (html_escape t' ++ rest)) = _
          rw [unescape_amp, ih]
          rfl
        · by_cases h4 : c = dquote
          · subst h4
            show unescapeHtml ('&' :: 'q' :: 'u' :: 'o' :: 't' :: ';' ::
              (html_escape t' ++ rest)) = _
            rw [unescape_quot, ih]
            rfl
          · by_cases h5 : c = squote
            · subst h5
              show unescapeHtml ('&' :: '#' :: '3' :: '9' :: ';' ::
                (html_escape t' ++ rest)) = _
              rw [unescape_num, ih]
              rfl
            · have hesc : escapeChar c = [c] := by
                unfold escapeChar
                rw [if_neg h1, if_neg h2, if_neg h3, if_neg h4, if_neg h5]
              rw [hesc, List.singleton_append, unescape_cons_of_ne c _ h3, ih]
              rfl

theorem htmlChunks_strip {out txt : List Char} (hc : HtmlChunks out txt) :
    ∀ b, stripTagsState false (out ++ b) = html_escape txt ++ stripTagsState false b := by
  induction hc with
  | nil => intro b; rfl
  | tag hprev htok ih =>
    intro b
    rw [List.append_assoc, ih, stripTags_tag_append htok]
  | text s hprev ih =>
    intro b
    rw [List.append_assoc, ih, stripTags_clean_append (lt_not_mem_escape s),
      html_escape_append, List.append_assoc]

theorem htmlChunks_roundtrip {out txt : List Char} (hc : HtmlChunks out txt) :
    stripHtmlMarkup out = txt := by
  unfold stripHtmlMarkup stripTags
  have h1 := htmlChunks_strip hc []
  rw [List.append_nil] at h1
  rw [h1]
  show unescapeHtml (html_escape txt ++ []) = txt
  rw [unescape_escape_append]
  rw [show unescapeHtml [] = [] from rfl, List.append_nil]

theorem stripAnsiState_true_append {mid : List Char} (h : 'm' ∉ mid) (b : List Char) :
    stripAnsiState true (mid ++ ('m' :: b)) = stripAnsiState false b := by
  induction mid with
  | nil => simp [stripAnsiState]
  | cons c rest ih =>
    simp only [List.mem_cons, not_or] at h
    have hne : ¬ (c = 'm') := fun hc => h.1 hc.symm
    simp only [List.cons_append, stripAnsiState, if_neg hne]
    exact ih h.2

theorem stripAnsi_seq_append {t : List Char} (h : isAnsiToken t) (b : List Char) :
    stripAnsiState false (t ++ b) = stripAnsiState false b := by
  obtain ⟨mid, ht, hmid⟩ := h
  subst ht
  simp only [List.cons_append, List.append_assoc, List.singleton_append]
  simp only [stripAnsiState, if_pos rfl]
  exact stripAnsiState_true_append hmid b

theorem stripAnsi_clean_append {a : List Char} (h : escChar ∉ a) (b : List Char) :
    stripAnsiState false (a ++ b) = a ++ stripAnsiState false b := by
  induction a with
  | nil => simp
  | cons c rest ih =>
    simp only [List.mem_cons, not_or] at h
    have hne : ¬ (c = escChar) := fun hc => h.1 hc.symm
    simp only [List.cons_append, stripAnsiState, if_neg hne]
    exact congrArg (fun x => c :: x) (ih h.2)

theorem ansiChunks_strip {out txt : List Char} (hc : AnsiChunks out txt) :
    ∀ b, stripAnsiState false (out ++ b) = txt ++ stripAnsiState false b := by
  induction hc with
  | nil => intro b; rfl
  | seq hprev htok ih =>
    intro b
    rw [List.append_assoc, ih, stripAnsi_seq_append htok]
  | text s hprev hesc ih =>
    intro b
    rw [List.append_assoc, ih, stripAnsi_clean_append hesc, List.append_assoc]

theorem ansiChunks_roundtrip {out txt : List Char} (hc : AnsiChunks out txt) :
    stripAnsi out = txt := by
  unfold stripAnsi
  have h1 := ansiChunks_strip hc []
  rw [List.append_nil] at h1
  rw [h1]
  show txt ++ stripAnsiState false [] = txt
  rw [show stripAnsiState false [] = [] from rfl, List.append_nil]

/-!
Well-formedness of the markup tokens the renderer emits.
-/

theorem lookupStr_mem {α : Type} (tbl : List (String × α)) (c : String) (v : α)
    (h : lookupStr tbl c = some v) : v ∈ tbl.map Prod.snd := by
  induction tbl with
  | nil => simp [lookupStr] at h
  | cons p rest ih =>
    obtain ⟨k, w⟩ := p
    by_cases hk : k = c
    · simp only [lookupStr, if_pos hk, Option.some.injEq] at h
      simp [h]
    · simp only [lookupStr, if_neg hk] at h
      simp [ih h]

theorem tag_for_capture_gt_free {c t : String} (h : tag_for_capture c = some t) :
    Char.ofNat 62 ∉ t.toList := by
  have hmem := lookupStr_mem _ _ _ h
  have hall : ∀ v ∈ captureSlotTable.map Prod.snd, Char.ofNat 62 ∉ v.toList := by decide
  exact hall t hmem

theorem tag_to_name_gt_free {c t : String} (h : tag_to_name c = some t) :
    Char.ofNat 62 ∉ t.toList := by
  have hmem := lookupStr_mem _ _ _ h
  have hall : ∀ v ∈ [("k", "keyword"), ("f", "function"), ("s", "string"), ("c", "comment"),
     ("t", "type"), ("v", "variable"), ("co", "constant"), ("p", "punctuation"),
     ("pr", "property"), ("at", "attribute"), ("tg", "tag"), ("m", "macro"),
     ("l", "label"), ("ns", "namespace"), ("cr", "constructor"), ("tt", "title"),
     ("st", "strong"), ("em", "emphasis"), ("da", "diff-add"), ("dd", "diff-delete"),
     ("er", "error")].map Prod.snd, Char.ofNat 62 ∉ v.toList := by decide
  exact hall t hmem

theorem make_html_tags_tokens (tag : String) (fmt : HtmlFormat) (hf : fmtOk fmt)
    (ht : Char.ofNat 62 ∉ tag.toList) :
    isTagToken (make_html_tags tag fmt).1 ∧ isTagToken (make_html_tags tag fmt).2 := by
  cases fmt with
  | CustomElements =>
    constructor
    · refine ⟨['a', '-'] ++ tag.toList, ?_, ?_⟩
      · simp [make_html_tags]
      · simp only [List.mem_append, not_or]
        exact ⟨by decide, ht⟩
    · refine ⟨['/', 'a', '-'] ++ tag.toList, ?_, ?_⟩
      · simp [make_html_tags]
      · simp only [List.mem_append, not_or]
        exact ⟨by decide, ht⟩
  | CustomElementsPrefixed pfx =>
    unfold fmtOk at hf
    constructor
    · refine ⟨pfx.toList ++ ['-'] ++ tag.toList, ?_, ?_⟩
      · simp [make_html_tags]
      · simp only [List.mem_append, not_or]
        exact ⟨⟨hf, by decide⟩, ht⟩
    · refine ⟨['/'] ++ pfx.toList ++ ['-'] ++ tag.toList, ?_, ?_⟩
      · simp [make_html_tags]
      · simp only [List.mem_append, not_or]
        exact ⟨⟨⟨by decide, hf⟩, by decide⟩, ht⟩
  | ClassNames =>
    cases hn : tag_to_name tag with
    | none =>
      constructor
      · exact ⟨['s', 'p', 'a', 'n'], by simp [make_html_tags, hn], by decide⟩
      · exact ⟨['/', 's', 'p', 'a', 'n'], by simp [make_html_tags, hn], by decide⟩
    | some name =>
      constructor
      · refine ⟨"span class=".toList ++ [dquote] ++ name.toList ++ [dquote], ?_, ?_⟩
        · simp [make_html_tags, hn]
        · simp only [List.mem_append, not_or]
          exact ⟨⟨⟨by decide, by decide⟩, tag_to_name_gt_free hn⟩, by decide⟩
      · exact ⟨['/', 's', 'p', 'a', 'n'], by simp [make_html_tags, hn], by decide⟩
  | ClassNamesPrefixed pfx =>
    unfold fmtOk at hf
    cases hn : tag_to_name tag with
    | none =>
      constructor
      · exact ⟨['s', 'p', 'a', 'n'], by simp [make_html_tags, hn], by decide⟩
      · exact ⟨['/', 's', 'p', 'a', 'n'], by simp [make_html_tags, hn], by decide⟩
    | some name =>
      constructor
      · refine ⟨"span class=".toList ++ [dquote] ++ pfx.toList ++ ['-'] ++ name.toList
          ++ [dquote], ?_, ?_⟩
        · simp [make_html_tags, hn]
        · simp only [List.mem_append, not_or]
          exact ⟨⟨⟨⟨⟨by decide, by decide⟩, hf⟩, by decide⟩,
            tag_to_name_gt_free hn⟩, by decide⟩
      · exact ⟨['/', 's', 'p', 'a', 'n'], by simp [make_html_tags, hn], by decide⟩

theorem emitHtml_chunks (spans : List NormalizedSpan) (fmt : HtmlFormat)
    (html : List Char) (stack : List Nat) (text txt : List Char)
    (hf : fmtOk fmt)
    (hspans : ∀ sp ∈ spans, Char.ofNat 62 ∉ sp.tag.toList)
    (hc : HtmlChunks html txt) :
    HtmlChunks (emitHtml spans fmt html stack text) (txt ++ text) := by
  unfold emitHtml
  cases hh : stack.head? with
  | none => exact HtmlChunks.text text hc
  | some top =>
    have htag : Char.ofNat 62 ∉
        (((spans.get? top).map NormalizedSpan.tag).getD "").toList := by
      cases hget : spans.get? top with
      | none => simp
      | some sp =>
        simp only [hget, Option.map_some', Option.getD_some]
        exact hspans sp (List.get?_mem hget)
    obtain ⟨ho, hcl⟩ := make_html_tags_tokens _ fmt hf htag
    exact HtmlChunks.tag (HtmlChunks.text text (HtmlChunks.tag hc ho)) hcl

/-!
Membership through the rendering pipeline.
-/

theorem orderedInsertB_perm {α : Type} (le : α → α → Bool) (a : α) (l : List α) :
    (orderedInsertB le a l).Perm (a :: l) := by
  induction l with
  | nil => exact List.Perm.refl _
  | cons b rest ih =>
    unfold orderedInsertB
    by_cases h : le a b
    · rw [if_pos h]
    · rw [if_neg h]
      exact (List.Perm.cons b ih).trans (List.Perm.swap a b rest)

theorem sort_by_perm {α : Type} (le : α → α → Bool) (l : List α) :
    (sort_by le l).Perm l := by
  induction l with
  | nil => exact List.Perm.refl _
  | cons a rest ih =>
    exact (orderedInsertB_perm le a (sort_by le rest)).trans (List.Perm.cons a ih)

theorem mem_sort_by {α : Type} {le : α → α → Bool} {l : List α} {x : α} :
    x ∈ sort_by le l ↔ x ∈ l :=
  (sort_by_perm le l).mem_iff

theorem mem_upsertSpan {m : List ((Nat × Nat) × Span)} {key : Nat × Nat} {v : Span}
    {kv : (Nat × Nat) × Span} (h : kv ∈ upsertSpan m key v) :
    kv ∈ m ∨ kv = (key, v) := by
  induction m with
  | nil =>
    simp [upsertSpan] at h
    exact Or.inr h
  | cons p rest ih =>
    obtain ⟨k, w⟩ := p
    by_cases hk : k = key
    · simp only [upsertSpan, if_pos hk, List.mem_cons] at h
      rcases h with h | h
      · exact Or.inr h
      · exact Or.inl (List.mem_cons_of_mem _ h)
    · simp only [upsertSpan, if_neg hk, List.mem_cons] at h
      rcases h with h | h
      · exact Or.inl (by simp [h])
      · rcases ih h with h2 | h2
        · exact Or.inl (List.mem_cons_of_mem _ h2)
        · exact Or.inr h2

theorem dedup_fold_preserves (styled : Span → Bool) (P : Span → Prop) :
    ∀ (l : List Span) (m : List ((Nat × Nat) × Span)),
      (∀ kv ∈ m, P kv.2) → (∀ sp ∈ l, P sp) →
      ∀ kv ∈ l.foldl (dedupStep styled) m, P kv.2 := by
  intro l
  induction l with
  | nil => intro m hm _ kv hkv; exact hm kv hkv
  | cons sp rest ih =>
    intro m hm hl kv hkv
    rw [List.foldl_cons] at hkv
    refine ih (dedupStep styled m sp) ?_ (fun x hx => hl x (List.mem_cons_of_mem _ hx)) kv hkv
    intro kv2 hkv2
    have hsp : P sp := hl sp (List.mem_cons_self sp rest)
    unfold dedupStep at hkv2
    dsimp only at hkv2
    split at hkv2
    · split at hkv2
      · rcases mem_upsertSpan hkv2 with h2 | h2
        · exact hm kv2 h2
        · rw [h2]; exact hsp
      · exact hm kv2 hkv2
    · rcases mem_upsertSpan hkv2 with h2 | h2
      · exact hm kv2 h2
      · rw [h2]; exact hsp

theorem dedupBy_subset (styled : Span → Bool) (spans : List Span) :
    ∀ v ∈ dedupBy styled spans, v ∈ spans := by
  intro v hv
  unfold dedupBy at hv
  obtain ⟨kv, hkv, hveq⟩ := List.mem_map.mp hv
  have := dedup_fold_preserves styled (fun s => s ∈ spans) spans []
    (by intro kv2 h2; simp at h2) (fun sp h => h) kv hkv
  rw [← hveq]
  exact this

theorem coalesce_fold_preserves (P : NormalizedSpan → Prop)
    (hmerge : ∀ last sp, P last → P sp →
      P { last with «end» := max last.«end» sp.«end» }) :
    ∀ (l : List NormalizedSpan) (acc : List NormalizedSpan),
      (∀ x ∈ acc, P x) → (∀ x ∈ l, P x) →
      ∀ x ∈ l.foldl coalescePush acc, P x := by
  intro l
  induction l with
  | nil => intro acc hacc _ x hx; exact hacc x hx
  | cons sp rest ih =>
    intro acc hacc hl x hx
    rw [List.foldl_cons] at hx
    refine ih (coalescePush acc sp) ?_ (fun y hy => hl y (List.mem_cons_of_mem _ hy)) x hx
    intro y hy
    have hsp : P sp := hl sp (List.mem_cons_self sp rest)
    cases acc with
    | nil =>
      unfold coalescePush at hy
      simp only [List.mem_singleton] at hy
      rw [hy]; exact hsp
    | cons last accRest =>
      unfold coalescePush at hy
      dsimp only at hy
      split at hy
      · rcases List.mem_cons.mp hy with h2 | h2
        · rw [h2]
          exact hmerge last sp (hacc last (List.mem_cons_self _ _)) hsp
        · exact hacc y (List.mem_cons_of_mem _ h2)
      · rcases List.mem_cons.mp hy with h2 | h2
        · rw [h2]; exact hsp
        · exact hacc y h2

theorem nc_mem_prop (P : NormalizedSpan → Prop)
    (hmerge : ∀ last sp, P last → P sp →
      P { last with «end» := max last.«end» sp.«end» })
    (spans : List Span)
    (hin : ∀ sp nsp, sp ∈ spans → normalizeSpan sp = some nsp → P nsp) :
    ∀ x ∈ normalize_and_coalesce spans, P x := by
  intro x hx
  unfold normalize_and_coalesce at hx
  by_cases hsp : spans = []
  · rw [if_pos hsp] at hx; simp at hx
  · rw [if_neg hsp] at hx
    by_cases hn : spans.filterMap normalizeSpan = []
    · rw [if_pos hn] at hx; simp at hx
    · rw [if_neg hn] at hx
      unfold coalesceStep at hx
      rw [List.mem_reverse] at hx
      refine coalesce_fold_preserves P hmerge _ [] (by simp) ?_ x hx
      intro y hy
      rw [mem_sort_by] at hy
      obtain ⟨sp, hspmem, hns⟩ := List.mem_filterMap.mp hy
      exact hin sp y hspmem hns

theorem nc_tag_from_table (spans : List Span) :
    ∀ x ∈ normalize_and_coalesce spans, ∃ c, tag_for_capture c = some x.tag := by
  refine nc_mem_prop _ ?_ spans ?_
  · intro last sp hl _
    exact hl
  · intro sp nsp _ hns
    unfold normalizeSpan at hns
    obtain ⟨t, ht, heq⟩ := Option.map_eq_some'.mp hns
    refine ⟨sp.capture, ?_⟩
    rw [← heq]
    exact ht

theorem renderTags_gt_free (deduped : List Span) :
    ∀ sp ∈ sort_by nLe2 (normalize_and_coalesce deduped),
      Char.ofNat 62 ∉ sp.tag.toList := by
  intro sp hsp
  rw [mem_sort_by] at hsp
  obtain ⟨c, hc⟩ := nc_tag_from_table deduped sp hsp
  exact tag_for_capture_gt_free hc

/-!
The HTML sweep-loop invariant and the round-trip of `spans_to_html`.
-/

/-- Invariant of the HTML event loop: the output so far is well-chunked with
plain text `txt`, and `txt` followed by the unemitted remainder is the
source. -/
def RInvH (source : List Char) (st : HState) : Prop :=
  ∃ txt rem, HtmlChunks st.html txt ∧ dropBytes source st.lastPos = some rem ∧
    txt ++ rem = source

theorem processHtmlEvent_inv {source : List Char} {spans : List NormalizedSpan}
    {fmt : HtmlFormat} {ev : Nat × Bool × Nat} {st st' : HState}
    (hf : fmtOk fmt) (hspans : ∀ sp ∈ spans, Char.ofNat 62 ∉ sp.tag.toList)
    (hstep : processHtmlEvent source spans fmt st ev = some st')
    (hinv : RInvH source st) : RInvH source st' := by
  unfold processHtmlEvent at hstep
  dsimp only at hstep
  by_cases hg : st.lastPos < ev.1 ∧ ev.1 ≤ utf8Len source
  · rw [if_pos hg] at hstep
    cases hsl : sliceBytes source st.lastPos ev.1 with
    | none =>
      rw [hsl] at hstep
      exact absurd hstep (by simp)
    | some text =>
      rw [hsl] at hstep
      simp only [Option.map_some', Option.some.injEq] at hstep
      obtain ⟨txt, rem, hck, hdrop, heq⟩ := hinv
      obtain ⟨rem', hremeq, hdropb⟩ := sliceBytes_decompose hdrop hsl (Nat.le_of_lt hg.1)
      rw [← hstep]
      refine ⟨txt ++ text, rem', ?_, ?_, ?_⟩
      · exact emitHtml_chunks spans fmt st.html st.stack text txt hf hspans hck
      · exact hdropb
      · rw [List.append_assoc, ← hremeq]
        exact heq
  · rw [if_neg hg] at hstep
    simp only [Option.map_some', Option.some.injEq] at hstep
    obtain ⟨txt, rem, hck, hdrop, heq⟩ := hinv
    rw [← hstep]
    exact ⟨txt, rem, hck, hdrop, heq⟩

theorem foldlM_html_inv {source : List Char} {spans : List NormalizedSpan}
    {fmt : HtmlFormat}
    (hf : fmtOk fmt) (hspans : ∀ sp ∈ spans, Char.ofNat 62 ∉ sp.tag.toList) :
    ∀ (evs : List (Nat × Bool × Nat)) (st st' : HState),
      evs.foldlM (processHtmlEvent source spans fmt) st = some st' →
      RInvH source st → RInvH source st' := by
  intro evs
  induction evs with
  | nil =>
    intro st st' h hinv
    simp only [List.foldlM_nil] at h
    cases h
    exact hinv
  | cons ev rest ih =>
    intro st st' h hinv
    rw [List.foldlM_cons] at h
    cases hstep : processHtmlEvent source spans fmt st ev with
    | none =>
      rw [hstep] at h
      exact absurd h (by simp)
    | some st1 =>
      rw [hstep] at h
      exact ih st1 st' h (processHtmlEvent_inv hf hspans hstep hinv)

theorem escape_chunks (source : List Char) :
    HtmlChunks (html_escape source) source := by
  have h := HtmlChunks.text source HtmlChunks.nil
  rw [List.nil_append, List.nil_append] at h
  exact h

theorem renderFromDeduped_roundtrip {source : List Char} {fmt : HtmlFormat}
    {deduped : List Span} {out : List Char}
    (hf : fmtOk fmt) (hout : renderFromDeduped source fmt deduped = some out) :
    stripHtmlMarkup out = source := by
  unfold renderFromDeduped at hout
  by_cases hns : normalize_and_coalesce deduped = []
  · rw [if_pos hns] at hout
    cases hout
    exact htmlChunks_roundtrip (escape_chunks source)
  · rw [if_neg hns] at hout
    dsimp only at hout
    have hspans := renderTags_gt_free deduped
    cases hfold : (sort_by eventLe (spanEvents (sort_by nLe2 (normalize_and_coalesce
        deduped)))).foldlM (processHtmlEvent source (sort_by nLe2
        (normalize_and_coalesce deduped)) fmt) (HState.mk [] 0 []) with
    | none =>
      rw [hfold] at hout
      exact absurd hout (by simp)
    | some st =>
      rw [hfold] at hout
      dsimp only at hout
      have hinv := foldlM_html_inv hf hspans _ _ _ hfold
        ⟨[], source, HtmlChunks.nil, dropBytes_zero source, rfl⟩
      obtain ⟨txt, rem, hck, hdrop, heq⟩ := hinv
      by_cases hlt : st.lastPos < utf8Len source
      · rw [if_pos hlt, hdrop] at hout
        cases hout
        have hchunk := emitHtml_chunks _ fmt st.html st.stack rem txt hf hspans hck
        rw [heq] at hchunk
        exact htmlChunks_roundtrip hchunk
      · rw [if_neg hlt] at hout
        cases hout
        have hlen := dropBytes_utf8Len hdrop
        have hrem : rem = [] := by
          apply utf8Len_eq_zero
          have hle : st.lastPos ≤ utf8Len source := by omega
          omega
        rw [hrem, List.append_nil] at heq
        rw [← heq]
        exact htmlChunks_roundtrip hck

theorem spans_to_html_roundtrip {source : List Char} {spans : List Span}
    {fmt : HtmlFormat} {out : List Char}
    (hf : fmtOk fmt) (hout : spans_to_html source spans fmt = some out) :
    stripHtmlMarkup out = source := by
  unfold spans_to_html at hout
  by_cases hsp : spans = []
  · rw [if_pos hsp] at hout
    cases hout
    exact htmlChunks_roundtrip (escape_chunks source)
  · rw [if_neg hsp] at hout
    exact renderFromDeduped_roundtrip hf hout

/-!
The ANSI sweep-loop invariant and the round-trip of `spans_to_ansi`.
-/

theorem ansiReset_token : isAnsiToken ansiReset :=
  ⟨['[', '0'], rfl, by decide⟩

/-- Invariant of the ANSI event loop. -/
def RInvA (source : List Char) (st : AState) : Prop :=
  ∃ txt rem, AnsiChunks st.out txt ∧ dropBytes source st.lastPos = some rem ∧
    txt ++ rem = source

theorem emitAnsi_chunks (theme : Theme) (out : List Char) (act des : Option Nat)
    (text txt : List Char) (hthm : themeOk theme) (hesc : escChar ∉ text)
    (hc : AnsiChunks out txt) :
    AnsiChunks (emitAnsi theme out act des text).1 (txt ++ text) := by
  unfold emitAnsi
  cases act with
  | none =>
    cases des with
    | none => exact AnsiChunks.text text hc hesc
    | some d => exact AnsiChunks.text text (AnsiChunks.seq hc (hthm d)) hesc
  | some a =>
    cases des with
    | none => exact AnsiChunks.text text (AnsiChunks.seq hc ansiReset_token) hesc
    | some d =>
      dsimp only
      by_cases had : a = d
      · rw [if_pos had]
        exact AnsiChunks.text text hc hesc
      · rw [if_neg had]
        exact AnsiChunks.text text
          (AnsiChunks.seq (AnsiChunks.seq hc ansiReset_token) (hthm d)) hesc

theorem processAnsiEvent_inv {source : List Char} {theme : Theme}
    {ev : Nat × Bool × Nat} {st st' : AState}
    (hthm : themeOk theme) (hsrc : escChar ∉ source)
    (hstep : processAnsiEvent source theme st ev = some st')
    (hinv : RInvA source st) : RInvA source st' := by
  unfold processAnsiEvent at hstep
  dsimp only at hstep
  by_cases hg : st.lastPos < ev.1 ∧ ev.1 ≤ utf8Len source
  · rw [if_pos hg] at hstep
    cases hsl : sliceBytes source st.lastPos ev.1 with
    | none =>
      rw [hsl] at hstep
      exact absurd hstep (by simp)
    | some text =>
      rw [hsl] at hstep
      simp only [Option.map_some', Option.some.injEq] at hstep
      obtain ⟨txt, rem, hck, hdrop, heq⟩ := hinv
      obtain ⟨rem', hremeq, hdropb⟩ := sliceBytes_decompose hdrop hsl (Nat.le_of_lt hg.1)
      have hesc : escChar ∉ text := by
        intro hmem
        apply hsrc
        rw [← heq, hremeq]
        exact List.mem_append_right txt (List.mem_append_left rem' hmem)
      rw [← hstep]
      refine ⟨txt ++ text, rem', ?_, hdropb, ?_⟩
      · exact emitAnsi_chunks theme st.out _ _ text txt hthm hesc hck
      · rw [List.append_assoc, ← hremeq]
        exact heq
  · rw [if_neg hg] at hstep
    simp only [Option.map_some', Option.some.injEq] at hstep
    obtain ⟨txt, rem, hck, hdrop, heq⟩ := hinv
    rw [← hstep]
    exact ⟨txt, rem, hck, hdrop, heq⟩

theorem foldlM_ansi_inv {source : List Char} {theme : Theme}
    (hthm : themeOk theme) (hsrc : escChar ∉ source) :
    ∀ (evs : List (Nat × Bool × Nat)) (st st' : AState),
      evs.foldlM (processAnsiEvent source theme) st = some st' →
      RInvA source st → RInvA source st' := by
  intro evs
  induction evs with
  | nil =>
    intro st st' h hinv
    simp only [List.foldlM_nil] at h
    cases h
    exact hinv
  | cons ev rest ih =>
    intro st st' h hinv
    rw [List.foldlM_cons] at h
    cases hstep : processAnsiEvent source theme st ev with
    | none =>
      rw [hstep] at h
      exact absurd h (by simp)
    | some st1 =>
      rw [hstep] at h
      exact ih st1 st' h (processAnsiEvent_inv hthm hsrc hstep hinv)

theorem stripAnsi_of_clean {source : List Char} (h : escChar ∉ source) :
    stripAnsi source = source := by
  unfold stripAnsi
  have h2 := stripAnsi_clean_append h []
  rw [List.append_nil] at h2
  rw [h2, show stripAnsiState false [] = [] from rfl, List.append_nil]

theorem spans_to_ansi_roundtrip {source : List Char} {spans : List Span}
    {theme : Theme} {out : List Char}
    (hthm : themeOk theme) (hsrc : escChar ∉ source)
    (hout : spans_to_ansi source spans theme = some out) :
    stripAnsi out = source := by
  unfold spans_to_ansi at hout
  by_cases h1 : spans = []
  · rw [if_pos h1] at hout
    cases hout
    exact stripAnsi_of_clean hsrc
  · rw [if_neg h1] at hout
    dsimp only at hout
    by_cases h2 : (dedupAnsi (sort_by spanLe spans)).filterMap styleSpan = []
    · rw [if_pos h2] at hout
      cases hout
      exact stripAnsi_of_clean hsrc
    · rw [if_neg h2] at hout
      by_cases h3 : ((sort_by sKeyLe ((dedupAnsi (sort_by spanLe
          spans)).filterMap styleSpan)).foldl coalescePushAnsi []).reverse = []
      · rw [if_pos h3] at hout
        cases hout
        exact stripAnsi_of_clean hsrc
      · rw [if_neg h3] at hout
        cases hfold : (sort_by eventLe (styledEvents ((sort_by sKeyLe ((dedupAnsi
            (sort_by spanLe spans)).filterMap styleSpan)).foldl coalescePushAnsi
            []).reverse)).foldlM (processAnsiEvent source theme)
            (AState.mk [] 0 [] none) with
        | none =>
          rw [hfold] at hout
          exact absurd hout (by simp)
        | some st =>
          rw [hfold] at hout
          dsimp only at hout
          have hinv := foldlM_ansi_inv hthm hsrc _ _ _ hfold
            ⟨[], source, AnsiChunks.nil, dropBytes_zero source, rfl⟩
          obtain ⟨txt, rem, hck, hdrop, heq⟩ := hinv
          by_cases hlt : st.lastPos < utf8Len source
          · rw [if_pos hlt, hdrop] at hout
            dsimp only at hout
            have hesc : escChar ∉ rem := by
              intro hmem
              apply hsrc
              rw [← heq]
              exact List.mem_append_right txt hmem
            have hchunk := emitAnsi_chunks theme st.out st.activeStyle
              st.stack.head? rem txt hthm hesc hck
            rw [heq] at hchunk
            by_cases hact : (emitAnsi theme st.out st.activeStyle
                st.stack.head? rem).2.isSome
            · rw [if_pos hact] at hout
              cases hout
              exact ansiChunks_roundtrip (AnsiChunks.seq hchunk ansiReset_token)
            · rw [if_neg hact] at hout
              cases hout
              exact ansiChunks_roundtrip hchunk
          · rw [if_neg hlt] at hout
            dsimp only at hout
            have hlen := dropBytes_utf8Len hdrop
            have hrem : rem = [] := by
              apply utf8Len_eq_zero
              omega
            rw [hrem, List.append_nil] at heq
            rw [heq] at hck
            by_cases hact : st.activeStyle.isSome
            · rw [if_pos hact] at hout
              cases hout
              exact ansiChunks_roundtrip (AnsiChunks.seq hck ansiReset_token)
            · rw [if_neg hact] at hout
              cases hout
              exact ansiChunks_roundtrip hck

/-- Counterexample to claim C1 as stated: under the claim's own reading of
"plain-text fragments emitted" for ANSI mode — escape sequences stripped from
the output — a source text that itself contains the `ESC` character does not
round-trip, because the ANSI renderer emits literal text unescaped, so
stripping also deletes the source's own `ESC ... m` bytes.  Here the source
is the four characters `ESC [ 0 m`, the span set is empty, rendering returns
the source unchanged, and stripping the output yields the empty string. -/
theorem c1_counterexample :
    spans_to_ansi [escChar, '[', '0', 'm'] [] (Theme.mk (fun _ => ansiReset)) =
      some [escChar, '[', '0', 'm'] ∧
      stripAnsi [escChar, '[', '0', 'm'] ≠ [escChar, '[', '0', 'm'] := by
  exact ⟨rfl, by decide⟩

/-- Claim C1 (amended): whenever rendering completes, concatenating the
plain-text fragments of the output reproduces the source exactly.  For HTML
mode (structural tokens stripped, escaping undone) this holds for every
source and span set, provided a configured class/element name part contains
no `>`; for ANSI mode (escape sequences stripped) it additionally requires
the theme styles to be well-formed escape sequences and the source itself to
be free of the `ESC` character, since literal text is not escaped there. -/
theorem c1_round_trip (source : List Char) (spans : List Span) (fmt : HtmlFormat)
    (theme : Theme) (outH outA : List Char) :
    (fmtOk fmt → spans_to_html source spans fmt = some outH →
      stripHtmlMarkup outH = source) ∧
    (themeOk theme → escChar ∉ source →
      spans_to_ansi source spans theme = some outA → stripAnsi outA = source) :=
  ⟨fun hf hout => spans_to_html_roundtrip hf hout,
   fun hthm hsrc hout => spans_to_ansi_roundtrip hthm hsrc hout⟩

/-- Concrete run of the C1 theorem, in both output modes. -/
theorem c1_witness :
    stripHtmlMarkup "<a-k>fn</a-k> <a-f>main</a-f>".toList = "fn main".toList ∧
      stripAnsi [escChar, '[', '3', '1', 'm', 'a', escChar, '[', '0', 'm', 'b'] =
        "ab".toList := by
  have h1 := c1_round_trip "fn main".toList
    [Span.mk 0 2 "keyword" 0, Span.mk 3 7 "function" 0] HtmlFormat.CustomElements
    (Theme.mk (fun _ => ansiReset)) "<a-k>fn</a-k> <a-f>main</a-f>".toList []
  have h2 := c1_round_trip "ab".toList [Span.mk 0 1 "keyword" 0]
    HtmlFormat.CustomElements (Theme.mk (fun _ => [escChar, '[', '3', '1', 'm']))
    [] [escChar, '[', '3', '1', 'm', 'a', escChar, '[', '0', 'm', 'b']
  refine ⟨h1.1 trivial (by decide), h2.2 ?_ (by decide) (by decide)⟩
  intro i
  exact ⟨['[', '3', '1'], rfl, by decide⟩

/-!
Totality of the renderers over character-boundary-aligned spans (claim C4).
-/

theorem snd_mem_of_mem_enum {α : Type} {l : List α} {p : Nat × α}
    (h : p ∈ l.enum) : p.2 ∈ l := by
  have h2 := List.mem_enum_iff_getElem?.mp h
  exact List.getElem?_mem h2

theorem isBoundary_zero (s : List Char) : isBoundary s 0 := by
  unfold isBoundary
  rw [dropBytes_zero]
  rfl

theorem foldlM_html_total {source : List Char} {spans : List NormalizedSpan}
    {fmt : HtmlFormat} :
    ∀ (evs : List (Nat × Bool × Nat)) (st : HState),
      (∀ ev ∈ evs, isBoundary source ev.1) → isBoundary source st.lastPos →
      ∃ st', evs.foldlM (processHtmlEvent source spans fmt) st = some st' ∧
        isBoundary source st'.lastPos := by
  intro evs
  induction evs with
  | nil => intro st _ hb; exact ⟨st, rfl, hb⟩
  | cons ev rest ih =>
    intro st hevs hb
    have hbev : isBoundary source ev.1 := hevs ev (List.mem_cons_self _ _)
    have hstep : ∃ st1, processHtmlEvent source spans fmt st ev = some st1 ∧
        isBoundary source st1.lastPos := by
      unfold processHtmlEvent
      dsimp only
      by_cases hg : st.lastPos < ev.1 ∧ ev.1 ≤ utf8Len source
      · rw [if_pos hg]
        have hsl := sliceBytes_isSome hb hbev (Nat.le_of_lt hg.1)
        obtain ⟨text, htext⟩ := Option.isSome_iff_exists.mp hsl
        rw [htext]
        exact ⟨_, rfl, hbev⟩
      · rw [if_neg hg]
        exact ⟨_, rfl, hb⟩
    obtain ⟨st1, hstep1, hb1⟩ := hstep
    obtain ⟨st', hfold, hb'⟩ := ih st1 (fun e he => hevs e (List.mem_cons_of_mem _ he)) hb1
    refine ⟨st', ?_, hb'⟩
    rw [List.foldlM_cons, hstep1]
    exact hfold

theorem foldlM_ansi_total {source : List Char} {theme : Theme} :
    ∀ (evs : List (Nat × Bool × Nat)) (st : AState),
      (∀ ev ∈ evs, isBoundary source ev.1) → isBoundary source st.lastPos →
      ∃ st', evs.foldlM (processAnsiEvent source theme) st = some st' ∧
        isBoundary source st'.lastPos := by
  intro evs
  induction evs with
  | nil => intro st _ hb; exact ⟨st, rfl, hb⟩
  | cons ev rest ih =>
    intro st hevs hb
    have hbev : isBoundary source ev.1 := hevs ev (List.mem_cons_self _ _)
    have hstep : ∃ st1, processAnsiEvent source theme st ev = some st1 ∧
        isBoundary source st1.lastPos := by
      unfold processAnsiEvent
      dsimp only
      by_cases hg : st.lastPos < ev.1 ∧ ev.1 ≤ utf8Len source
      · rw [if_pos hg]
        have hsl := sliceBytes_isSome hb hbev (Nat.le_of_lt hg.1)
        obtain ⟨text, htext⟩ := Option.isSome_iff_exists.mp hsl
        rw [htext]
        exact ⟨_, rfl, hbev⟩
      · rw [if_neg hg]
        exact ⟨_, rfl, hb⟩
    obtain ⟨st1, hstep1, hb1⟩ := hstep
    obtain ⟨st', hfold, hb'⟩ := ih st1 (fun e he => hevs e (List.mem_cons_of_mem _ he)) hb1
    refine ⟨st', ?_, hb'⟩
    rw [List.foldlM_cons, hstep1]
    exact hfold

theorem spanEvents_boundary {source : List Char} {n : List NormalizedSpan}
    (h : ∀ sp ∈ n, isBoundary source sp.start ∧ isBoundary source sp.«end») :
    ∀ ev ∈ sort_by eventLe (spanEvents n), isBoundary source ev.1 := by
  intro ev hev
  rw [mem_sort_by] at hev
  unfold spanEvents at hev
  obtain ⟨p, hp, hev2⟩ := List.mem_flatMap.mp hev
  have hmem : p.2 ∈ n := snd_mem_of_mem_enum hp
  rcases List.mem_cons.mp hev2 with h1 | h1
  · rw [h1]; exact (h p.2 hmem).1
  · simp only [List.mem_singleton] at h1
    rw [h1]; exact (h p.2 hmem).2

theorem styledEvents_boundary {source : List Char} {n : List StyledSpan}
    (h : ∀ sp ∈ n, isBoundary source sp.start ∧ isBoundary source sp.«end») :
    ∀ ev ∈ sort_by eventLe (styledEvents n), isBoundary source ev.1 := by
  intro ev hev
  rw [mem_sort_by] at hev
  unfold styledEvents at hev
  obtain ⟨p, hp, hev2⟩ := List.mem_flatMap.mp hev
  have hmem : p.2 ∈ n := snd_mem_of_mem_enum hp
  rcases List.mem_cons.mp hev2 with h1 | h1
  · rw [h1]; exact (h p.2 hmem).1
  · simp only [List.mem_singleton] at h1
    rw [h1]; exact (h p.2 hmem).2

theorem nc_boundary {source : List Char} (spans : List Span)
    (h : ∀ sp ∈ spans, isBoundary source sp.start ∧ isBoundary source sp.«end») :
    ∀ x ∈ normalize_and_coalesce spans,
      isBoundary source x.start ∧ isBoundary source x.«end» := by
  refine nc_mem_prop _ ?_ spans ?_
  · intro last sp hl hs
    refine ⟨hl.1, ?_⟩
    rcases max_choice last.«end» sp.«end» with hm | hm
    · show isBoundary source (max last.«end» sp.«end»)
      rw [hm]; exact hl.2
    · show isBoundary source (max last.«end» sp.«end»)
      rw [hm]; exact hs.2
  · intro sp nsp hmem hns
    unfold normalizeSpan at hns
    obtain ⟨t, _, heq⟩ := Option.map_eq_some'.mp hns
    rw [← heq]
    exact h sp hmem

theorem coalesceAnsi_fold_preserves (P : StyledSpan → Prop)
    (hmerge : ∀ last sp, P last → P sp →
      P { last with «end» := max last.«end» sp.«end» }) :
    ∀ (l : List StyledSpan) (acc : List StyledSpan),
      (∀ x ∈ acc, P x) → (∀ x ∈ l, P x) →
      ∀ x ∈ l.foldl coalescePushAnsi acc, P x := by
  intro l
  induction l with
  | nil => intro acc hacc _ x hx; exact hacc x hx
  | cons sp rest ih =>
    intro acc hacc hl x hx
    rw [List.foldl_cons] at hx
    refine ih (coalescePushAnsi acc sp) ?_
      (fun y hy => hl y (List.mem_cons_of_mem _ hy)) x hx
    intro y hy
    have hsp : P sp := hl sp (List.mem_cons_self sp rest)
    cases acc with
    | nil =>
      unfold coalescePushAnsi at hy
      simp only [List.mem_singleton] at hy
      rw [hy]; exact hsp
    | cons last accRest =>
      unfold coalescePushAnsi at hy
      dsimp only at hy
      split at hy
      · rcases List.mem_cons.mp hy with h2 | h2
        · rw [h2]
          exact hmerge last sp (hacc last (List.mem_cons_self _ _)) hsp
        · exact hacc y (List.mem_cons_of_mem _ h2)
      · rcases List.mem_cons.mp hy with h2 | h2
        · rw [h2]; exact hsp
        · exact hacc y h2

theorem renderFromDeduped_total {source : List Char} {fmt : HtmlFormat}
    {deduped : List Span}
    (hb : ∀ sp ∈ deduped, isBoundary source sp.start ∧ isBoundary source sp.«end») :
    (renderFromDeduped source fmt deduped).isSome := by
  unfold renderFromDeduped
  dsimp only
  by_cases hns : normalize_and_coalesce deduped = []
  · rw [if_pos hns]; rfl
  · rw [if_neg hns]
    have hnsb := nc_boundary deduped hb
    have hevb := @spanEvents_boundary source
      (sort_by nLe2 (normalize_and_coalesce deduped))
      (fun sp hsp => hnsb sp (mem_sort_by.mp hsp))
    obtain ⟨st, hfold, hb'⟩ := @foldlM_html_total source
      (sort_by nLe2 (normalize_and_coalesce deduped)) fmt _ (HState.mk [] 0 [])
      hevb (isBoundary_zero source)
    rw [hfold]
    dsimp only
    by_cases hlt : st.lastPos < utf8Len source
    · rw [if_pos hlt]
      obtain ⟨rem, hrem⟩ := Option.isSome_iff_exists.mp hb'
      rw [hrem]
      rfl
    · rw [if_neg hlt]; rfl

theorem spans_to_html_total {source : List Char} {spans : List Span}
    {fmt : HtmlFormat}
    (hb : ∀ sp ∈ spans, isBoundary source sp.start ∧ isBoundary source sp.«end») :
    (spans_to_html source spans fmt).isSome := by
  unfold spans_to_html
  by_cases hsp : spans = []
  · rw [if_pos hsp]; rfl
  · rw [if_neg hsp]
    refine renderFromDeduped_total ?_
    intro sp hsp2
    exact hb sp (mem_sort_by.mp (dedupBy_subset _ _ sp hsp2))

theorem styled_boundary {source : List Char} {spans : List Span}
    (hb : ∀ sp ∈ spans, isBoundary source sp.start ∧ isBoundary source sp.«end») :
    ∀ x ∈ ((sort_by sKeyLe ((dedupAnsi (sort_by spanLe spans)).filterMap
      styleSpan)).foldl coalescePushAnsi []).reverse,
      isBoundary source x.start ∧ isBoundary source x.«end» := by
  intro x hx
  rw [List.mem_reverse] at hx
  refine coalesceAnsi_fold_preserves
    (fun y => isBoundary source y.start ∧ isBoundary source y.«end»)
    ?_ _ [] (by simp) ?_ x hx
  · intro last sp hl hs
    refine ⟨hl.1, ?_⟩
    rcases max_choice last.«end» sp.«end» with hm | hm
    · show isBoundary source (max last.«end» sp.«end»)
      rw [hm]; exact hl.2
    · show isBoundary source (max last.«end» sp.«end»)
      rw [hm]; exact hs.2
  · intro y hy
    rw [mem_sort_by] at hy
    obtain ⟨sp, hspmem, hns⟩ := List.mem_filterMap.mp hy
    unfold styleSpan at hns
    obtain ⟨i, _, heq⟩ := Option.map_eq_some'.mp hns
    rw [← heq]
    exact hb sp (mem_sort_by.mp (dedupBy_subset _ _ sp hspmem))

theorem spans_to_ansi_total {source : List Char} {spans : List Span}
    {theme : Theme}
    (hb : ∀ sp ∈ spans, isBoundary source sp.start ∧ isBoundary source sp.«end») :
    (spans_to_ansi source spans theme).isSome := by
  unfold spans_to_ansi
  by_cases h1 : spans = []
  · rw [if_pos h1]; rfl
  · rw [if_neg h1]
    dsimp only
    by_cases h2 : (dedupAnsi (sort_by spanLe spans)).filterMap styleSpan = []
    · rw [if_pos h2]; rfl
    · rw [if_neg h2]
      by_cases h3 : ((sort_by sKeyLe ((dedupAnsi (sort_by spanLe
          spans)).filterMap styleSpan)).foldl coalescePushAnsi []).reverse = []
      · rw [if_pos h3]; rfl
      · rw [if_neg h3]
        have hevb := @styledEvents_boundary source
          (((sort_by sKeyLe ((dedupAnsi (sort_by spanLe spans)).filterMap
            styleSpan)).foldl coalescePushAnsi []).reverse)
          (styled_boundary hb)
        obtain ⟨st, hfold, hb'⟩ := @foldlM_ansi_total source theme _
          (AState.mk [] 0 [] none) hevb (isBoundary_zero source)
        rw [hfold]
        dsimp only
        by_cases hlt : st.lastPos < utf8Len source
        · rw [if_pos hlt]
          obtain ⟨rem, hrem⟩ := Option.isSome_iff_exists.mp hb'
          rw [hrem]
          dsimp only
          by_cases hact : (emitAnsi theme st.out st.activeStyle
              st.stack.head? rem).2.isSome
          · rw [if_pos hact]; rfl
          · rw [if_neg hact]; rfl
        · rw [if_neg hlt]
          dsimp only
          by_cases hact : st.activeStyle.isSome
          · rw [if_pos hact]; rfl
          · rw [if_neg hact]; rfl

/-- Counterexample to claim C4 as stated: the precondition
`0 ≤ start ≤ end ≤ len(source_bytes)` is not enough for totality.  On the
one-character source `é` (two UTF-8 bytes) the span `[0, 1)` satisfies it,
yet both renderers hit a string-slice at byte 1, the middle of the
character, which panics in Rust (modelled as `none`). -/
theorem c4_counterexample :
    utf8Len ['é'] = 2 ∧
      spans_to_html ['é'] [Span.mk 0 1 "keyword" 0] HtmlFormat.CustomElements = none ∧
      spans_to_ansi ['é'] [Span.mk 0 1 "keyword" 0] (Theme.mk (fun _ => ansiReset)) =
        none := by
  refine ⟨by decide, by decide, ?_⟩
  decide

/-- Claim C4 (amended): rendering is total over spans whose byte offsets
satisfy the §3 invariant *and* fall on character boundaries of the source.
Under that precondition `spans_to_html` and `spans_to_ansi`, including the
internal dedup and coalescing steps, always return a string (`isSome`): no
panic or failure path is reachable. -/
theorem c4_renderers_total (source : List Char) (spans : List Span)
    (fmt : HtmlFormat) (theme : Theme)
    (hse : ∀ sp ∈ spans, sp.start ≤ sp.«end»)
    (hb : ∀ sp ∈ spans, isBoundary source sp.start ∧ isBoundary source sp.«end») :
    (spans_to_html source spans fmt).isSome ∧
      (spans_to_ansi source spans theme).isSome :=
  ⟨spans_to_html_total hb, spans_to_ansi_total hb⟩

/-- Concrete run of the C4 theorem. -/
theorem c4_witness :
    (spans_to_html "fn main".toList [Span.mk 0 2 "keyword" 0, Span.mk 3 7 "function" 0]
      HtmlFormat.CustomElements).isSome ∧
      (spans_to_ansi "fn main".toList [Span.mk 0 2 "keyword" 0, Span.mk 3 7 "function" 0]
        (Theme.mk (fun _ => ansiReset))).isSome := by
  exact c4_renderers_total "fn main".toList
    [Span.mk 0 2 "keyword" 0, Span.mk 3 7 "function" 0] HtmlFormat.CustomElements
    (Theme.mk (fun _ => ansiReset)) (by decide) (by decide)

/-!
The coalescing invariant (claim C2): after coalescing, no two *consecutive*
retained spans share a tag with touching or overlapping ranges.  The code
only ever merges an incoming span into the most recently emitted run, so the
pairwise form of the invariant claimed by the spec fails when a span of a
different tag sits between two same-tag spans.
-/

theorem coalesce_fold_chain :
    ∀ (l acc : List NormalizedSpan),
      List.Chain' (fun x y => y.tag = x.tag → y.«end» < x.start) acc →
      List.Chain' (fun x y => y.tag = x.tag → y.«end» < x.start)
        (l.foldl coalescePush acc) := by
  intro l
  induction l with
  | nil => intro acc h; exact h
  | cons sp rest ih =>
    intro acc hacc
    rw [List.foldl_cons]
    apply ih
    cases acc with
    | nil => exact List.chain'_singleton sp
    | cons last accRest =>
      unfold coalescePush
      dsimp only
      split


      · obtain ⟨hpair, hrest⟩ := List.chain'_cons'.mp hacc
        refine List.chain'_cons'.mpr ⟨?_, hrest⟩
        intro b hb
        exact hpair b hb
      · next hc =>
        refine List.chain'_cons'.mpr ⟨?_, hacc⟩
        intro b hb
        simp only [List.head?_cons, Option.mem_def, Option.some.injEq] at hb
        subst hb
        intro htag
        rw [Bool.and_eq_true, decide_eq_true_eq, decide_eq_true_eq] at hc
        have hnot : ¬ (sp.tag = last.tag ∧ sp.start ≤ last.«end») := hc
        have h2 : ¬ (sp.start ≤ last.«end») := fun hle => hnot ⟨htag.symm, hle⟩
        omega

/-- The coalesced output never has two consecutive mergeable spans (shared
helper for the coalescing-invariant and idempotence claims). -/
theorem nc_chain (spans : List Span) :
    List.Chain' (fun a b => a.tag = b.tag → a.«end» < b.start)
      (normalize_and_coalesce spans) := by
  unfold normalize_and_coalesce
  by_cases h1 : spans = []
  · rw [if_pos h1]; exact List.chain'_nil
  · rw [if_neg h1]
    by_cases h2 : spans.filterMap normalizeSpan = []
    · rw [if_pos h2]; exact List.chain'_nil
    · rw [if_neg h2]
      unfold coalesceStep
      rw [List.chain'_reverse]
      exact coalesce_fold_chain _ [] List.chain'_nil

/-!
Sortedness of the coalescer's output and idempotence of the merge step
(claim C5).
-/

theorem nKeyLe_iff (a b : NormalizedSpan) : nKeyLe a b = true ↔ NLe a b := by
  unfold nKeyLe NLe
  simp [Bool.or_eq_true, Bool.and_eq_true, decide_eq_true_eq]

theorem nKeyLe_trans (a b c : NormalizedSpan)
    (h1 : nKeyLe a b = true) (h2 : nKeyLe b c = true) : nKeyLe a c = true := by
  rw [nKeyLe_iff] at h1 h2 ⊢
  unfold NLe at h1 h2 ⊢
  omega

theorem nKeyLe_total (a b : NormalizedSpan) :
    nKeyLe a b = true ∨ nKeyLe b a = true := by
  rw [nKeyLe_iff, nKeyLe_iff]
  unfold NLe
  omega

theorem mem_orderedInsertB {α : Type} {le : α → α → Bool} {a x : α} {l : List α}
    (h : x ∈ orderedInsertB le a l) : x = a ∨ x ∈ l := by
  have := (orderedInsertB_perm le a l).mem_iff.mp h
  simpa using this

theorem orderedInsertB_sorted {α : Type} (le : α → α → Bool)
    (htot : ∀ a b, le a b = true ∨ le b a = true)
    (htrans : ∀ a b c, le a b = true → le b c = true → le a c = true) (a : α) :
    ∀ l : List α, List.Pairwise (fun x y => le x y = true) l →
      List.Pairwise (fun x y => le x y = true) (orderedInsertB le a l) := by
  intro l
  induction l with
  | nil => intro _; exact List.pairwise_singleton _ a
  | cons b rest ih =>
    intro hp
    obtain ⟨hb_all, hrest⟩ := List.pairwise_cons.mp hp
    unfold orderedInsertB
    by_cases hab : le a b
    · rw [if_pos hab]
      refine List.pairwise_cons.mpr ⟨?_, hp⟩
      intro x hx
      rcases List.mem_cons.mp hx with h1 | h1
      · rw [h1]; exact hab
      · exact htrans a b x hab (hb_all x h1)
    · rw [if_neg hab]
      refine List.pairwise_cons.mpr ⟨?_, ih hrest⟩
      intro x hx
      rcases mem_orderedInsertB hx with h1 | h1
      · rw [h1]
        rcases htot a b with h2 | h2
        · exact absurd h2 hab
        · exact h2
      · exact hb_all x h1

theorem sort_by_sorted {α : Type} (le : α → α → Bool)
    (htot : ∀ a b, le a b = true ∨ le b a = true)
    (htrans : ∀ a b c, le a b = true → le b c = true → le a c = true) :
    ∀ l : List α, List.Pairwise (fun x y => le x y = true) (sort_by le l) := by
  intro l
  induction l with
  | nil => exact List.Pairwise.nil
  | cons a rest ih =>
    exact orderedInsertB_sorted le htot htrans a _ ih

theorem sort_by_of_sorted {α : Type} (le : α → α → Bool) :
    ∀ l : List α, List.Pairwise (fun x y => le x y = true) l → sort_by le l = l := by
  intro l
  induction l with
  | nil => intro _; rfl
  | cons a rest ih =>
    intro hp
    obtain ⟨ha_all, hrest⟩ := List.pairwise_cons.mp hp
    show orderedInsertB le a (sort_by le rest) = a :: rest
    rw [ih hrest]
    cases rest with
    | nil => rfl
    | cons b rest2 =>
      unfold orderedInsertB
      rw [if_pos (ha_all b (List.mem_cons_self b rest2))]

theorem coalesce_fold_sorted :
    ∀ (l acc : List NormalizedSpan),
      List.Pairwise (fun a b => nKeyLe a b = true) l →
      (∀ a ∈ acc, ∀ s ∈ l, nKeyLe a s = true) →
      List.Pairwise (fun x y => nKeyLe y x = true) acc →
      List.Pairwise (fun x y => nKeyLe y x = true) (l.foldl coalescePush acc) := by
  intro l
  induction l with
  | nil => intro acc _ _ haccp; exact haccp
  | cons sp rest ih =>
    intro acc hsortl hbelow haccp
    rw [List.foldl_cons]
    obtain ⟨hsp_rest, hsortrest⟩ := List.pairwise_cons.mp hsortl
    apply ih _ hsortrest
    · intro a ha s hs
      cases acc with
      | nil =>
        unfold coalescePush at ha
        simp only [List.mem_singleton] at ha
        rw [ha]
        exact hsp_rest s hs
      | cons last accRest =>
        unfold coalescePush at ha
        dsimp only at ha
        split at ha
        · rcases List.mem_cons.mp ha with h1 | h1
          · rw [h1]
            have h_last_s : nKeyLe last s = true :=
              hbelow last (List.mem_cons_self _ _) s (List.mem_cons_of_mem _ hs)
            have h_sp_s : nKeyLe sp s = true := hsp_rest s hs
            have h_last_sp : nKeyLe last sp = true :=
              hbelow last (List.mem_cons_self _ _) sp (List.mem_cons_self _ _)
            rw [nKeyLe_iff] at h_last_s h_sp_s h_last_sp ⊢
            unfold NLe at h_last_s h_sp_s h_last_sp ⊢
            dsimp only
            omega
          · exact hbelow a (List.mem_cons_of_mem _ h1) s (List.mem_cons_of_mem _ hs)
        · rcases List.mem_cons.mp ha with h1 | h1
          · rw [h1]; exact hsp_rest s hs
          · exact hbelow a h1 s (List.mem_cons_of_mem _ hs)
    · cases acc with
      | nil =>
        unfold coalescePush
        exact List.pairwise_singleton _ sp
      | cons last accRest =>
        unfold coalescePush
        dsimp only
        split
        · obtain ⟨hlast_all, haccrest⟩ := List.pairwise_cons.mp haccp
          refine List.pairwise_cons.mpr ⟨?_, haccrest⟩
          intro x hx
          have h1 := hlast_all x hx
          rw [nKeyLe_iff] at h1 ⊢
          unfold NLe at h1 ⊢
          dsimp only
          omega
        · refine List.pairwise_cons.mpr ⟨?_, haccp⟩
          intro x hx
          rcases List.mem_cons.mp hx with h1 | h1
          · rw [h1]
            exact hbelow last (List.mem_cons_self _ _) sp (List.mem_cons_self _ _)
          · have h1' := (List.pairwise_cons.mp haccp).1 x h1
            have h2 := hbelow last (List.mem_cons_self _ _) sp (List.mem_cons_self _ _)
            exact nKeyLe_trans x last sp h1' h2

theorem nc_sorted (spans : List Span) :
    List.Pairwise (fun a b => nKeyLe a b = true) (normalize_and_coalesce spans) := by
  unfold normalize_and_coalesce
  by_cases h1 : spans = []
  · rw [if_pos h1]; exact List.Pairwise.nil
  · rw [if_neg h1]
    by_cases h2 : spans.filterMap normalizeSpan = []
    · rw [if_pos h2]; exact List.Pairwise.nil
    · rw [if_neg h2]
      unfold coalesceStep
      rw [List.pairwise_reverse]
      exact coalesce_fold_sorted _ []
        (sort_by_sorted nKeyLe nKeyLe_total nKeyLe_trans _)
        (by simp) List.Pairwise.nil

theorem coalesce_fold_noMerge :
    ∀ (l acc : List NormalizedSpan),
      List.Chain' (fun a b => ¬ (b.tag = a.tag ∧ b.start ≤ a.«end»))
        (acc.reverse ++ l) →
      l.foldl coalescePush acc = l.reverse ++ acc := by
  intro l
  induction l with
  | nil => intro acc _; rfl
  | cons sp rest ih =>
    intro acc hchain
    rw [List.foldl_cons]
    have hpush : coalescePush acc sp = sp :: acc := by
      cases acc with
      | nil => rfl
      | cons last accRest =>
        unfold coalescePush
        dsimp only
        have hjunction : ¬ (sp.tag = last.tag ∧ sp.start ≤ last.«end») := by
          obtain ⟨_, _, hcross⟩ := List.chain'_append.mp hchain
          refine hcross last ?_ sp ?_
          · rw [List.getLast?_reverse]
            rfl
          · rfl
        rw [if_neg (by
          rw [Bool.and_eq_true, decide_eq_true_eq, decide_eq_true_eq]
          exact hjunction)]
    rw [hpush]
    have hchain2 : List.Chain' (fun a b => ¬ (b.tag = a.tag ∧ b.start ≤ a.«end»))
        ((sp :: acc).reverse ++ rest) := by
      rw [List.reverse_cons, List.append_assoc]
      rw [List.singleton_append]
      exact hchain
    rw [ih (sp :: acc) hchain2]
    rw [List.reverse_cons, List.append_assoc, List.singleton_append]

/-- Claim C5: the coalescer's sort-and-merge step is idempotent — applying
it a second time to the output of `normalize_and_coalesce` returns that
output unchanged (the output is already `(start, end)`-sorted and no two
consecutive spans are mergeable, so no further merges occur). -/
theorem c5_coalesce_idempotent (spans : List Span) :
    coalesceStep (normalize_and_coalesce spans) = normalize_and_coalesce spans := by
  unfold coalesceStep
  rw [sort_by_of_sorted nKeyLe _ (nc_sorted spans)]
  have hchain := nc_chain spans
  have hNM : List.Chain' (fun a b => ¬ (b.tag = a.tag ∧ b.start ≤ a.«end»))
      ((([] : List NormalizedSpan)).reverse ++ normalize_and_coalesce spans) := by
    rw [List.reverse_nil, List.nil_append]
    refine List.Chain'.imp ?_ hchain
    intro a b hab
    intro hcon
    have := hab hcon.1.symm
    omega
  rw [coalesce_fold_noMerge _ [] hNM, List.append_nil, List.reverse_reverse]

/-- Counterexample to claim C2 as stated: the input spans `keyword [0,10)`,
`function [2,3)`, `keyword [5,6)` survive coalescing as three output spans,
and the two (non-consecutive) `k`-tagged output spans `[0,10)` and `[5,6)`
overlap — neither ends strictly before the other starts — because the walk
only merges into the immediately preceding run. -/
theorem c2_counterexample :
    normalize_and_coalesce [Span.mk 0 10 "keyword" 0, Span.mk 2 3 "function" 0,
        Span.mk 5 6 "keyword" 0] =
      [NormalizedSpan.mk 0 10 "k", NormalizedSpan.mk 2 3 "f",
        NormalizedSpan.mk 5 6 "k"] ∧
      ¬ ((10 : Nat) < 5 ∨ (6 : Nat) < 0) := by
  exact ⟨by decide, by decide⟩

/-- Claim C2 (amended): in the output of the normalizer/coalescer no two
*consecutive* spans share a tag with touching or overlapping ranges — for
every adjacent pair with equal tags, the earlier span's end is strictly
below the later span's start.  (The pairwise form over all same-tag output
spans is refuted by `c2_counterexample`.) -/
theorem c2_coalesce_consecutive_disjoint (spans : List Span) :
    List.Chain' (fun a b => a.tag = b.tag → a.«end» < b.start)
      (normalize_and_coalesce spans) :=
  nc_chain spans

/-!
Deduplication: at most one retained span per `(start, end)` key, and a styled
span always survives at its key (claim C3).
-/

theorem lookup_upsert_self (m : List ((Nat × Nat) × Span)) (key : Nat × Nat) (v : Span) :
    lookupKey (upsertSpan m key v) key = some v := by
  induction m with
  | nil => simp [upsertSpan, lookupKey]
  | cons p rest ih =>
    obtain ⟨k, w⟩ := p
    by_cases hk : k = key
    · simp [upsertSpan, hk, lookupKey]
    · simp only [upsertSpan, if_neg hk, lookupKey, if_neg hk]
      exact ih

theorem lookup_upsert_other (m : List ((Nat × Nat) × Span)) (key key2 : Nat × Nat)
    (v : Span) (hne : key ≠ key2) :
    lookupKey (upsertSpan m key v) key2 = lookupKey m key2 := by
  induction m with
  | nil => simp [upsertSpan, lookupKey, hne]
  | cons p rest ih =>
    obtain ⟨k, w⟩ := p
    by_cases hk : k = key
    · subst hk
      simp [upsertSpan, lookupKey, hne]
    · simp only [upsertSpan, if_neg hk, lookupKey]
      by_cases hk2 : k = key2
      · simp [hk2]
      · simp only [if_neg hk2]
        exact ih

theorem lookup_mem {m : List ((Nat × Nat) × Span)} {key : Nat × Nat} {v : Span}
    (h : lookupKey m key = some v) : (key, v) ∈ m := by
  induction m with
  | nil => simp [lookupKey] at h
  | cons p rest ih =>
    obtain ⟨k, w⟩ := p
    by_cases hk : k = key
    · subst hk
      simp [lookupKey] at h
      subst h
      exact List.mem_cons_self _ _
    · simp only [lookupKey, if_neg hk] at h
      exact List.mem_cons_of_mem _ (ih h)

theorem upsert_keys_sub {m : List ((Nat × Nat) × Span)} {key : Nat × Nat} {v : Span}
    {x : Nat × Nat} (h : x ∈ (upsertSpan m key v).map Prod.fst) :
    x ∈ m.map Prod.fst ∨ x = key := by
  obtain ⟨kv, hkv, hx⟩ := List.mem_map.mp h
  rcases mem_upsertSpan hkv with h1 | h1
  · exact Or.inl (List.mem_map.mpr ⟨kv, h1, hx⟩)
  · rw [h1] at hx
    exact Or.inr hx.symm

theorem upsert_keys_nodup {m : List ((Nat × Nat) × Span)} {key : Nat × Nat} {v : Span}
    (h : (m.map Prod.fst).Nodup) : ((upsertSpan m key v).map Prod.fst).Nodup := by
  induction m with
  | nil => simp [upsertSpan]
  | cons p rest ih =>
    obtain ⟨k, w⟩ := p
    simp only [List.map_cons, List.nodup_cons] at h
    by_cases hk : k = key
    · subst hk
      simp only [upsertSpan]
      rw [if_pos trivial]
      simp only [List.map_cons, List.nodup_cons]
      exact h
    · simp only [upsertSpan, if_neg hk, List.map_cons, List.nodup_cons]
      refine ⟨?_, ih h.2⟩
      intro hmem
      rcases upsert_keys_sub hmem with h1 | h1
      · exact h.1 h1
      · exact hk h1

theorem dedup_fold_keys_nodup (styled : Span → Bool) :
    ∀ (l : List Span) (m : List ((Nat × Nat) × Span)),
      (m.map Prod.fst).Nodup →
      ((l.foldl (dedupStep styled) m).map Prod.fst).Nodup := by
  intro l
  induction l with
  | nil => intro m h; exact h
  | cons sp rest ih =>
    intro m h
    rw [List.foldl_cons]
    refine ih _ ?_
    unfold dedupStep
    dsimp only
    split
    · split
      · exact upsert_keys_nodup h
      · exact h
    · exact upsert_keys_nodup h

theorem dedup_fold_keys_match (styled : Span → Bool) :
    ∀ (l : List Span) (m : List ((Nat × Nat) × Span)),
      (∀ kv ∈ m, (kv.2.start, kv.2.«end») = kv.1) →
      ∀ kv ∈ l.foldl (dedupStep styled) m, (kv.2.start, kv.2.«end») = kv.1 := by
  intro l
  induction l with
  | nil => intro m h kv hkv; exact h kv hkv
  | cons sp rest ih =>
    intro m h kv hkv
    rw [List.foldl_cons] at hkv
    refine ih _ ?_ kv hkv
    intro kv2 hkv2
    unfold dedupStep at hkv2
    dsimp only at hkv2
    split at hkv2
    · split at hkv2
      · rcases mem_upsertSpan hkv2 with h1 | h1
        · exact h kv2 h1
        · rw [h1]
      · exact h kv2 hkv2
    · rcases mem_upsertSpan hkv2 with h1 | h1
      · exact h kv2 h1
      · rw [h1]

theorem dedupBy_pairwise_keyNe (styled : Span → Bool) (spans : List Span) :
    List.Pairwise KeyNe (dedupBy styled spans) := by
  unfold dedupBy
  have hnodup := dedup_fold_keys_nodup styled spans [] (by simp)
  have hmatch := dedup_fold_keys_match styled spans [] (by simp)
  set m := spans.foldl (dedupStep styled) [] with hm
  have hkeys : m.map (fun kv => (kv.2.start, kv.2.«end»)) = m.map Prod.fst :=
    List.map_congr_left hmatch
  have : (m.map Prod.snd).map (fun v => (v.start, v.«end»)) = m.map Prod.fst := by
    rw [List.map_map]
    exact hkeys
  have hnodup2 : ((m.map Prod.snd).map (fun v => (v.start, v.«end»))).Nodup := by
    rw [this]
    exact hnodup
  have hpair : List.Pairwise
      (fun a b : Span => ¬ ((a.start, a.«end») = (b.start, b.«end»)))
      (m.map Prod.snd) := List.pairwise_map.mp hnodup2
  refine hpair.imp ?_
  intro a b hab
  intro hcon
  exact hab (by rw [hcon.1, hcon.2])

theorem countP_le_one_of_pairwise_keyNe {l : List Span} (key : Nat × Nat)
    (h : List.Pairwise KeyNe l) :
    l.countP (fun s => decide ((s.start, s.«end») = key)) ≤ 1 := by
  induction l with
  | nil => simp
  | cons v rest ih =>
    obtain ⟨hv_all, hrest⟩ := List.pairwise_cons.mp h
    rw [List.countP_cons]
    by_cases hv : (v.start, v.«end») = key
    · have hzero : rest.countP (fun s => decide ((s.start, s.«end») = key)) = 0 := by
        rw [List.countP_eq_zero]
        intro x hx
        have := hv_all x hx
        simp only [decide_eq_true_eq]
        intro hxkey
        apply this
        have : (v.start, v.«end») = (x.start, x.«end») := by rw [hv, hxkey]
        exact ⟨congrArg Prod.fst this, congrArg Prod.snd this⟩
      rw [hzero]
      simp [hv]
    · have := ih hrest
      simp only [hv]
      simpa using this

theorem dedup_fold_styled (styled : Span → Bool) (key : Nat × Nat) :
    ∀ (l : List Span) (m : List ((Nat × Nat) × Span)),
      ((∃ s ∈ l, (s.start, s.«end») = key ∧ styled s = true) ∨
        (∃ v, lookupKey m key = some v ∧ styled v = true)) →
      ∃ v, lookupKey (l.foldl (dedupStep styled) m) key = some v ∧ styled v = true := by
  intro l
  induction l with
  | nil =>
    intro m h
    rcases h with h | h
    · obtain ⟨s, hs, _⟩ := h
      exact absurd hs (List.not_mem_nil s)
    · exact h
  | cons sp rest ih =>
    intro m h
    rw [List.foldl_cons]
    apply ih
    rcases h with ⟨s, hs, hskey, hsst⟩ | ⟨v, hlook, hvst⟩
    · rcases List.mem_cons.mp hs with h1 | h1
      · subst h1
        right
        unfold dedupStep
        dsimp only
        refine ⟨s, ?_, hsst⟩
        rw [hskey]
        split
        · next existing hexist =>
          rw [if_pos (by rw [hsst]; rfl)]
          rw [← hskey]
          exact lookup_upsert_self _ _ _
        · rw [← hskey]
          exact lookup_upsert_self _ _ _
      · exact Or.inl ⟨s, h1, hskey, hsst⟩
    · right
      by_cases hkeq : (sp.start, sp.«end») = key
      · unfold dedupStep
        dsimp only
        rw [hkeq, hlook]
        dsimp only
        by_cases hcond : styled sp || !(styled v)
        · rw [if_pos hcond]
          refine ⟨sp, lookup_upsert_self _ _ _, ?_⟩
          rcases Bool.or_eq_true_iff.mp hcond with h2 | h2
          · exact h2
          · rw [hvst] at h2
            simp at h2
        · rw [if_neg hcond]
          exact ⟨v, hlook, hvst⟩
      · refine ⟨v, ?_, hvst⟩
        unfold dedupStep
        dsimp only
        split
        · split
          · rw [lookup_upsert_other _ _ _ _ hkeq]
            exact hlook
          · exact hlook
        · rw [lookup_upsert_other _ _ _ _ hkeq]
          exact hlook

/-- Claim C3: the dedup step retains at most one span per distinct
`(start, end)` key, and whenever some input span at a key resolves to a
styled slot, the span retained at that key also resolves to a styled slot
(stated for the `spans_to_html` signal `tag_for_capture(..).is_some()`, the
code cited by the claim). -/
theorem c3_dedup_cardinality_and_styling (spans : List Span) (key : Nat × Nat) :
    (dedupBy has_styling spans).countP
        (fun s => decide ((s.start, s.«end») = key)) ≤ 1 ∧
      ((∃ s ∈ spans, (s.start, s.«end») = key ∧ has_styling s = true) →
        ∃ t ∈ dedupBy has_styling spans,
          (t.start, t.«end») = key ∧ has_styling t = true) := by
  constructor
  · exact countP_le_one_of_pairwise_keyNe key (dedupBy_pairwise_keyNe has_styling spans)
  · intro hex
    obtain ⟨v, hlook, hvst⟩ := dedup_fold_styled has_styling key spans []
      (Or.inl hex)
    have hmem := lookup_mem hlook
    have hkeymatch := dedup_fold_keys_match has_styling spans [] (by simp)
      (key, v) hmem
    refine ⟨v, ?_, ?_, hvst⟩
    · unfold dedupBy
      exact List.mem_map.mpr ⟨(key, v), hmem, rfl⟩
    · exact hkeymatch

/-- Concrete run of the C3 theorem on the `@comment`/`@spell` example: both
spans cover `[0, 11)`; one span is retained and it is the styled `comment`
one. -/
theorem c3_witness :
    (dedupBy has_styling [Span.mk 0 11 "comment" 0, Span.mk 0 11 "spell" 0]).countP
        (fun s => decide ((s.start, s.«end») = ((0, 11) : Nat × Nat))) ≤ 1 ∧
      ∃ t ∈ dedupBy has_styling [Span.mk 0 11 "comment" 0, Span.mk 0 11 "spell" 0],
        (t.start, t.«end») = ((0, 11) : Nat × Nat) ∧ has_styling t = true := by
  have h := c3_dedup_cardinality_and_styling
    [Span.mk 0 11 "comment" 0, Span.mk 0 11 "spell" 0] (0, 11)
  exact ⟨h.1, h.2 ⟨Span.mk 0 11 "comment" 0, by decide, by decide, by decide⟩⟩

/-- Concrete run of the C8 theorem: a match carrying both a decodable
`injection.language` capture (`"json"`) and a `#set!` property (`"toml"`)
resolves to the captured text. -/
theorem c8_witness :
    let cfg : HighlightConfig := HighlightConfig.mk [] (fun _ =>
      [QueryProperty.mk "injection.language" (some "toml")]) (some 1) (some 0) 1 1
    let m : QMatch := QMatch.mk 0 [QCapture.mk 0 4 10 (some "json")]
    injectionLanguage cfg m = some "json" := by
  intro cfg m
  exact (c8_injection_language_precedence cfg m).1 "json" (by rfl)

/-!
Determinism of HTML rendering (claim C9): the only unordered stage of
`spans_to_html` is the iteration over the dedup `HashMap` (`into_values`), so
the pipeline after deduplication is shown to produce the same output on every
permutation of the dedup map's values.  The key fact is that the dedup values
carry pairwise-distinct `(start, end)` keys, which makes the `(start, end)`
sort order of `normalize_and_coalesce` a total order on them: any two
permutations sort to the identical list.
-/

theorem pairwise_filterMap_of {α β : Type} {R : α → α → Prop} {S : β → β → Prop}
    (f : α → Option β)
    (hf : ∀ a a2 b b2, f a = some b → f a2 = some b2 → R a a2 → S b b2) :
    ∀ (l : List α), List.Pairwise R l → List.Pairwise S (l.filterMap f) := by
  intro l
  induction l with
  | nil => intro _; simp
  | cons a rest ih =>
    intro h
    obtain ⟨ha, hrest⟩ := List.pairwise_cons.mp h
    rw [List.filterMap_cons]
    cases hfa : f a with
    | none => exact ih hrest
    | some b =>
      refine List.Pairwise.cons ?_ (ih hrest)
      intro y hy
      obtain ⟨x, hx, hfx⟩ := List.mem_filterMap.mp hy
      exact hf a x b y hfa hfx (ha x hx)

theorem normalizeSpan_key {s : Span} {n : NormalizedSpan}
    (h : normalizeSpan s = some n) : n.start = s.start ∧ n.«end» = s.«end» := by
  unfold normalizeSpan at h
  rw [Option.map_eq_some'] at h
  obtain ⟨t, _, ht⟩ := h
  rw [← ht]
  exact ⟨rfl, rfl⟩

theorem filterMap_normalize_keyNe {l : List Span} (h : List.Pairwise KeyNe l) :
    List.Pairwise NKeyNe (l.filterMap normalizeSpan) := by
  refine pairwise_filterMap_of normalizeSpan ?_ l h
  intro a a2 b b2 hb hb2 hR hcon
  apply hR
  obtain ⟨hb1, hb2e⟩ := normalizeSpan_key hb
  obtain ⟨hc1, hc2e⟩ := normalizeSpan_key hb2
  constructor
  · rw [← hb1, ← hc1]; exact hcon.1
  · rw [← hb2e, ← hc2e]; exact hcon.2

theorem nKeyNe_symm : ∀ {a b : NormalizedSpan}, NKeyNe a b → NKeyNe b a := by
  intro a b h hcon
  exact h ⟨hcon.1.symm, hcon.2.symm⟩

theorem sorted_perm_keyNe_eq :
    ∀ (l1 l2 : List NormalizedSpan), l1.Perm l2 →
      List.Pairwise (fun a b => nKeyLe a b = true) l1 →
      List.Pairwise (fun a b => nKeyLe a b = true) l2 →
      List.Pairwise NKeyNe l1 → l1 = l2 := by
  intro l1
  induction l1 with
  | nil =>
    intro l2 hperm _ _ _
    exact hperm.nil_eq
  | cons a t1 ih =>
    intro l2 hperm hs1 hs2 hne
    cases l2 with
    | nil => exact (List.cons_ne_nil a t1 (List.Perm.eq_nil hperm)).elim
    | cons b t2 =>
      by_cases hab : a = b
      · subst hab
        have ht : t1.Perm t2 := hperm.cons_inv
        rw [ih t2 ht (List.pairwise_cons.mp hs1).2 (List.pairwise_cons.mp hs2).2
          (List.pairwise_cons.mp hne).2]
      · have ha2 : a ∈ b :: t2 := hperm.mem_iff.mp (List.mem_cons_self a t1)
        have hat2 : a ∈ t2 := by
          rcases List.mem_cons.mp ha2 with h | h
          · exact absurd h hab
          · exact h
        have hb1 : b ∈ a :: t1 := hperm.mem_iff.mpr (List.mem_cons_self b t2)
        have hbt1 : b ∈ t1 := by
          rcases List.mem_cons.mp hb1 with h | h
          · exact absurd h.symm hab
          · exact h
        have h1 : nKeyLe a b = true := (List.pairwise_cons.mp hs1).1 b hbt1
        have h2 : nKeyLe b a = true := (List.pairwise_cons.mp hs2).1 a hat2
        have hne_ab : NKeyNe a b := (List.pairwise_cons.mp hne).1 b hbt1
        rw [nKeyLe_iff] at h1 h2
        unfold NLe at h1 h2
        exact absurd ⟨by omega, by omega⟩ hne_ab

theorem nc_perm_eq (v w : List Span) (hperm : v.Perm w)
    (hne : List.Pairwise KeyNe w) :
    normalize_and_coalesce v = normalize_and_coalesce w := by
  unfold normalize_and_coalesce
  have hfm : (v.filterMap normalizeSpan).Perm (w.filterMap normalizeSpan) :=
    hperm.filterMap _
  by_cases hv : v = []
  · subst hv
    rw [← hperm.nil_eq]
  · have hw : w ≠ [] := by
      intro hw0
      rw [hw0] at hperm
      exact hv hperm.eq_nil
    rw [if_neg hv, if_neg hw]
    by_cases hfv : v.filterMap normalizeSpan = []
    · have hfw : w.filterMap normalizeSpan = [] := by
        rw [hfv] at hfm
        exact hfm.nil_eq.symm
      rw [if_pos hfv, if_pos hfw]
    · have hfw : w.filterMap normalizeSpan ≠ [] := by
        intro h0
        rw [h0] at hfm
        exact hfv hfm.eq_nil
      rw [if_neg hfv, if_neg hfw]
      unfold coalesceStep
      have hnew : List.Pairwise NKeyNe (w.filterMap normalizeSpan) :=
        filterMap_normalize_keyNe hne
      have hnev : List.Pairwise NKeyNe (v.filterMap normalizeSpan) :=
        (hfm.pairwise_iff (fun h => nKeyNe_symm h)).mpr hnew
      have hnes : List.Pairwise NKeyNe (sort_by nKeyLe (v.filterMap normalizeSpan)) :=
        ((sort_by_perm nKeyLe _).pairwise_iff (fun h => nKeyNe_symm h)).mpr hnev
      have heq : sort_by nKeyLe (v.filterMap normalizeSpan) =
          sort_by nKeyLe (w.filterMap normalizeSpan) := by
        apply sorted_perm_keyNe_eq
        · exact (sort_by_perm nKeyLe _).trans (hfm.trans (sort_by_perm nKeyLe _).symm)
        · exact sort_by_sorted nKeyLe nKeyLe_total nKeyLe_trans _
        · exact sort_by_sorted nKeyLe nKeyLe_total nKeyLe_trans _
        · exact hnes
      rw [heq]

theorem renderFromDeduped_congr (source : List Char) (fmt : HtmlFormat)
    (v d : List Span) (h : normalize_and_coalesce v = normalize_and_coalesce d) :
    renderFromDeduped source fmt v = renderFromDeduped source fmt d := by
  unfold renderFromDeduped
  rw [h]

/-- Claim C9: HTML rendering is deterministic despite iterating an unordered
`HashMap` during dedup.  Whatever order `into_values` hands back the
deduplicated spans — modelled as an arbitrary permutation `v` of the dedup
output — the remainder of the `spans_to_html` pipeline produces the identical
output, because the surviving spans have pairwise-distinct `(start, end)`
keys and are re-sorted by `(start, end)` before any output is emitted. -/
theorem c9_render_deterministic (source : List Char) (spans : List Span)
    (fmt : HtmlFormat) (v : List Span)
    (hperm : v.Perm (dedupHtml (sort_by spanLe spans))) :
    renderFromDeduped source fmt v =
      renderFromDeduped source fmt (dedupHtml (sort_by spanLe spans)) := by
  apply renderFromDeduped_congr
  exact nc_perm_eq _ _ hperm (dedupBy_pairwise_keyNe has_styling _)

/-- Concrete run of the C9 theorem: feeding the dedup output reversed — one
possible hash-map iteration order — renders the same string as the dedup
output itself. -/
theorem c9_witness :
    renderFromDeduped "fn main".toList HtmlFormat.CustomElements
        (List.reverse (dedupHtml (sort_by spanLe
          [Span.mk 0 2 "keyword" 0, Span.mk 3 7 "function" 0,
            Span.mk 0 2 "spell" 0]))) =
      renderFromDeduped "fn main".toList HtmlFormat.CustomElements
        (dedupHtml (sort_by spanLe
          [Span.mk 0 2 "keyword" 0, Span.mk 3 7 "function" 0,
            Span.mk 0 2 "spell" 0])) :=
  c9_render_deterministic "fn main".toList
    [Span.mk 0 2 "keyword" 0, Span.mk 3 7 "function" 0, Span.mk 0 2 "spell" 0]
    HtmlFormat.CustomElements _ (List.reverse_perm _)

end Arborium
